import Mathlib

/-!
Verification development for the anchor-resolution engine of the
obsidian-marginalia plugin.

The embedding models the TypeScript sources:
  * `src/anchoring/TextQuoteSelector.ts` (resolveAnchor, resolveStage1/2/3,
    scoreContext, computeOverlapScore, computeLineNumber, findHeadingContext)
  * the fuzzy matcher module (normalizeWhitespace, levenshteinDistance,
    fuzzyMatch, fuzzyMatchInOriginal)
  * `src/storage/CommentStore.ts` (resolveAnchors)

Strings are modelled as `List Char` (JS strings indexed by code unit;
only equality of characters matters for the verified properties).
JS numbers are modelled as `Nat` / `Int` for indices and counts and as `ℚ`
for the fuzziness threshold and the context scores (division by zero is
read as 0, the rational stand-in for the JS NaN corner).
The one genuinely fallible operation — `resolveStage1`'s line-offset loop,
which dereferences `lines[i]!` and throws a TypeError when the line hint
lies more than 20 lines past the end of the document — is modelled with
`Except Unit`.
-/

namespace Marginalia

/-- Strings are lists of characters. -/
abbrev Str := List Char

/-- The JS `\s` class restricted to the whitespace characters relevant here
(space, tab, newline, carriage return, vertical tab, form feed). -/
def isWS (c : Char) : Bool :=
  c = ' ' || c = '\t' || c = '\n' || c = '\r' || c = '\x0b' || c = '\x0c'

/-- One pass of `text.replace(/\s+/g, ' ')`: every maximal whitespace run
collapses to a single space.  The boolean state records whether the
previous character was whitespace (run continuation). -/
def collapse : Str → Bool → Str
  | [], _ => []
  | c :: rest, prev =>
    if isWS c then
      if prev then collapse rest true else ' ' :: collapse rest true
    else
      c :: collapse rest false

/-- JS `String.prototype.trim`: drop whitespace from both ends. -/
def jsTrim (t : Str) : Str :=
  ((t.dropWhile isWS).reverse.dropWhile isWS).reverse

/-- `normalizeWhitespace(text)` from the fuzzy matcher:
`text.replace(/\s+/g, ' ').trim()`. -/
def normalizeWhitespace (t : Str) : Str :=
  jsTrim (collapse t false)

/-- Textbook Levenshtein recurrence (single-character insert / delete /
substitute); the reference definition of edit distance used to state
facts about the DP implementation below. -/
def levRec : Str → Str → Nat
  | [], b => b.length
  | a :: as, [] => (a :: as).length
  | x :: xs, y :: ys =>
    min (levRec xs (y :: ys) + 1)
      (min (levRec (x :: xs) ys + 1)
        (levRec xs ys + (if x = y then 0 else 1)))
termination_by a b => a.length + b.length
decreasing_by all_goals simp_arith

/-- Inner loop of the DP: given the previous row (as a list of length
`|a| + 1`) and `left` (the entry just written into the current row), build
the tail of the current row, one entry per character of `a`.
`curr[i] = min(curr[i-1] + 1, prev[i] + 1, prev[i-1] + cost)`. -/
def levRowAux (bj : Char) : Str → List Nat → Nat → List Nat
  | c :: as, p0 :: p1 :: ps, left =>
    let v := min (left + 1) (min (p1 + 1) (p0 + (if c = bj then 0 else 1)))
    v :: levRowAux bj as (p1 :: ps) v
  | _, _, _ => []

/-- Outer loop of the DP over the characters of `b` with the 1-based row
counter `j`; `prev` is the previous row. -/
def levLoop (a : Str) : Str → Nat → List Nat → List Nat
  | [], _, prev => prev
  | bj :: bs, j, prev => levLoop a bs (j + 1) (j :: levRowAux bj a prev j)

/-- `levenshteinDistance(a, b)`: rolling-row dynamic program from the
source, including the fast paths and the swap that makes `a` the shorter
input. -/
def levenshteinDistance (a b : Str) : Nat :=
  if a = b then 0
  else if a.length = 0 then b.length
  else if b.length = 0 then a.length
  else
    let p := if a.length > b.length then (b, a) else (a, b)
    (levLoop p.1 p.2 1 (List.range (p.1.length + 1))).getD p.1.length 0

/-- JS `String.prototype.substring(a, b)`: clamp both arguments to
`[0, length]` and swap them when `a > b`. -/
def jsSubstring (t : Str) (a b : Nat) : Str :=
  let a' := min a t.length
  let b' := min b t.length
  if a' ≤ b' then (t.drop a').take (b' - a') else (t.drop b').take (a' - b')

/-- Scan for the first position `≥ i` at which `needle` is a prefix of the
remaining text; `i` is the absolute position of the head of the list. -/
def indexOfAux (needle : Str) : Str → Nat → Option Nat
  | [], i => if needle.isPrefixOf ([] : Str) then some i else none
  | c :: rest, i =>
    if needle.isPrefixOf (c :: rest) then some i else indexOfAux needle rest (i + 1)

/-- JS `String.prototype.indexOf(needle, start)` (with a clamped start):
first occurrence position, or `none` for JS `-1`.  An empty needle matches
at `min start length`, as in JS. -/
def jsIndexOf (hay needle : Str) (start : Nat) : Option Nat :=
  indexOfAux needle (hay.drop start) (min start hay.length)

/-- `computeLineNumber(text, offset)`: count newline characters at indices
`< min offset length`. -/
def computeLineNumber (text : Str) (offset : Nat) : Nat :=
  (text.take offset).countP (· = '\n')

/-- The anchor descriptor (`CommentTarget` in `types.ts`).  The source
fields `prefix` / `suffix` are named `prefixText` / `suffixText` because
`prefix` is reserved in Lean. -/
structure CommentTarget where
  exact : Str
  prefixText : Str
  suffixText : Str
  headingContext : Option Str
  lineHint : Option Nat
deriving DecidableEq, Repr

/-- A resolved anchor `{from, to, line, stage}`; `from` / `to` are named
`fromPos` / `toPos` (`from` is reserved in Lean). -/
structure ResolvedAnchor where
  fromPos : Nat
  toPos : Nat
  line : Nat
  stage : Nat
deriving DecidableEq, Repr

/-- Does a line of text match the heading regex `^(#{1,6}\s+.*)$`?
Greedy `#{1,6}` with backtracking succeeds exactly when the maximal run of
leading `#` has length 1..6 and is followed by a whitespace character. -/
def headingLine (l : Str) : Bool :=
  let hashes := l.takeWhile (· = '#')
  decide (1 ≤ hashes.length) && decide (hashes.length ≤ 6) &&
    (match (l.drop hashes.length).head? with
     | some c => isWS c
     | none => false)

/-- `findHeadingContext(text, offset)`: the last line before `offset` that
matches the heading regex (the regex runs over `text.substring(0, offset)`
with the `gm` flags and the last match is kept). -/
def findHeadingContext (text : Str) (offset : Nat) : Option Str :=
  ((text.take offset).splitOn '\n').foldl
    (fun acc l => if headingLine l then some l else acc) none

/-- Run of equal characters from the heads of two lists (length of the
longest common prefix). -/
def commonRun : Str → Str → Nat
  | x :: xs, y :: ys => if x = y then commonRun xs ys + 1 else 0
  | _, _ => 0

/-- `computeOverlapScore(expected, actual)`: 0 for an empty input, 2 for
an exact normalized match, otherwise the backward-scanning loop counting
matching trailing characters (modelled as the common prefix run of the
reversed normalized strings) divided by the shorter normalized length. -/
def computeOverlapScore (expected actual : Str) : ℚ :=
  if actual.length = 0 ∨ expected.length = 0 then 0
  else
    let normExpected := normalizeWhitespace expected
    let normActual := normalizeWhitespace actual
    if normExpected = normActual then 2
    else
      let minLen := min normExpected.length normActual.length
      let matching := commonRun normExpected.reverse normActual.reverse
      (matching : ℚ) / (minLen : ℚ)

/-- `scoreContext(target, docText, matchFrom, matchTo)`: prefix, suffix
and heading components.  Empty prefix / suffix strings are falsy in JS and
contribute nothing; the heading bonus also requires the found heading to
be truthy (nonempty). -/
def scoreContext (target : CommentTarget) (docText : Str)
    (matchFrom matchTo : Nat) : ℚ :=
  let s1 :=
    if target.prefixText ≠ [] then
      let prefixLen := target.prefixText.length
      let actualPrefix := jsSubstring docText (matchFrom - prefixLen) matchFrom
      computeOverlapScore target.prefixText actualPrefix
    else 0
  let s2 :=
    if target.suffixText ≠ [] then
      let suffixLen := target.suffixText.length
      let actualSuffix :=
        jsSubstring docText matchTo (min docText.length (matchTo + suffixLen))
      computeOverlapScore target.suffixText actualSuffix
    else 0
  let s3 :=
    match target.headingContext with
    | none => 0
    | some hc =>
      if hc = [] then 0
      else
        match findHeadingContext docText matchFrom with
        | some heading =>
          if heading ≠ [] ∧ normalizeWhitespace heading = normalizeWhitespace hc
          then 2 else 0
        | none => 0
  s1 + s2 + s3

/-- Result record of the fuzzy matcher. -/
structure FuzzyMatchResult where
  index : Nat
  length : Nat
  distance : Nat
deriving DecidableEq, Repr

/-- The scan order of `fuzzyMatch`'s two nested loops: window lengths from
`max(1, n - maxD)` to `min(n + maxD, hayLen)` (outer), start positions
`0 .. hayLen - winLen` (inner). -/
def scanPairs (nLen hayLen : Nat) (maxD : ℤ) : List (Nat × Nat) :=
  let minW : ℤ := max 1 ((nLen : ℤ) - maxD)
  let hi : ℤ := min ((nLen : ℤ) + maxD) (hayLen : ℤ)
  let lo : Nat := minW.toNat
  let cnt : Nat := (hi - minW + 1).toNat
  (List.range' lo cnt).flatMap
    (fun w => (List.range (hayLen - w + 1)).map (fun i => (w, i)))

/-- The body of `fuzzyMatch`'s scan: process the remaining (winLen, start)
pairs keeping the best (lowest-distance) in-budget window, returning
immediately on a zero-distance window. -/
def fuzzyScan (needle hay : Str) (maxD : ℤ) :
    List (Nat × Nat) → Option FuzzyMatchResult → Option FuzzyMatchResult
  | [], best => best
  | (winLen, i) :: rest, best =>
    let candidate := (hay.drop i).take winLen
    let dist := levenshteinDistance needle candidate
    if (dist : ℤ) > maxD then fuzzyScan needle hay maxD rest best
    else
      match best with
      | none =>
        if dist = 0 then some ⟨i, winLen, dist⟩
        else fuzzyScan needle hay maxD rest (some ⟨i, winLen, dist⟩)
      | some b =>
        if dist < b.distance then
          if dist = 0 then some ⟨i, winLen, dist⟩
          else fuzzyScan needle hay maxD rest (some ⟨i, winLen, dist⟩)
        else fuzzyScan needle hay maxD rest (some b)

/-- `fuzzyMatch` after the threshold has been turned into the integer
edit-distance budget `maxDistance = floor(len(normalizedNeedle) * t)`. -/
def fuzzyMatchCore (needle haystack : Str) (maxDistance : ℤ) :
    Option FuzzyMatchResult :=
  let normalizedNeedle := normalizeWhitespace needle
  let normalizedHaystack := normalizeWhitespace haystack
  if normalizedNeedle.length = 0 then none
  else
    fuzzyScan normalizedNeedle normalizedHaystack maxDistance
      (scanPairs normalizedNeedle.length normalizedHaystack.length maxDistance)
      none

/-- `fuzzyMatch(needle, haystack, threshold)` from the source. -/
def fuzzyMatch (needle haystack : Str) (threshold : ℚ) :
    Option FuzzyMatchResult :=
  fuzzyMatchCore needle haystack
    (Int.floor (((normalizeWhitespace needle).length : ℚ) * threshold))

/-- Mutable state of the offset-mapping walk in `fuzzyMatchInOriginal`:
the normalized position reached so far, the previous-was-space flag, and
the recorded match boundaries (`-1` modelled as `none`). -/
structure WalkSt where
  normIdx : Nat
  prevWS : Bool
  mStart : Option Nat
  mEnd : Option Nat
deriving DecidableEq, Repr

/-- One iteration of the walk's loop body at original index `oIdx` for
character `ch`, with match window `[tS, tE)` in normalized coordinates. -/
def stepW (tS tE : Nat) (oIdx : Nat) (ch : Char) (s : WalkSt) : WalkSt :=
  let isSpace := isWS ch
  let s1 :=
    if isSpace then
      if !s.prevWS && decide (0 < s.normIdx) then
        { s with
          mStart := if s.normIdx = tS then some oIdx else s.mStart
          normIdx := s.normIdx + 1
          prevWS := true }
      else { s with prevWS := true }
    else
      { s with
        mStart := if s.normIdx = tS then some oIdx else s.mStart
        normIdx := s.normIdx + 1
        prevWS := false }
  if s1.normIdx = tE ∧ s1.mEnd = none then
    { s1 with mEnd := some (oIdx + (if isSpace then 0 else 1)) }
  else s1

/-- The walk's loop: run while characters remain and `normIdx < tE`;
returns the final value of the loop counter and the final state. -/
def walk (tS tE : Nat) : Str → Nat → WalkSt → Nat × WalkSt
  | [], oIdx, s => (oIdx, s)
  | ch :: rest, oIdx, s =>
    if s.normIdx < tE then walk tS tE rest (oIdx + 1) (stepW tS tE oIdx ch s)
    else (oIdx, s)

/-- `fuzzyMatchInOriginal(needle, originalText, threshold)`: fuzzy-match
against the normalized text, then map the normalized window back onto the
original text by walking it from `trimmedStart`. -/
def fuzzyMatchInOriginal (needle originalText : Str) (threshold : ℚ) :
    Option FuzzyMatchResult :=
  let normalizedText := normalizeWhitespace originalText
  match fuzzyMatch needle normalizedText threshold with
  | none => none
  | some result =>
    let trimmedStart := originalText.length - (originalText.dropWhile isWS).length
    let r := walk result.index (result.index + result.length)
      (originalText.drop trimmedStart) trimmedStart ⟨0, false, none, none⟩
    match r.2.mStart with
    | none => none
    | some matchStart =>
      let matchEnd := r.2.mEnd.getD r.1
      some ⟨matchStart, matchEnd - matchStart, result.distance⟩

/-- The first loop of `resolveStage1`: `Σ_{i<k} (lines[i].length + 1)`;
dereferencing a missing line (`k` beyond the array) is the JS TypeError. -/
def sumLinesBefore : List Str → Nat → Except Unit Nat
  | _, 0 => .ok 0
  | [], _ + 1 => .error ()
  | l :: ls, k + 1 => (sumLinesBefore ls k).map (fun s => l.length + 1 + s)

/-- The ±20-line search window of `resolveStage1`:
`docText.substring(regionStart, regionEnd)` where `regionEnd` adds the
lengths (plus separators) of the lines `startLine ≤ i < endLine` and is
clamped to the document length. -/
def stage1Window (docText : Str) (lineHint : Nat) (regionStart : Nat) : Str :=
  let lines := docText.splitOn '\n'
  let startLine := lineHint - 20
  let endLine := min lines.length (lineHint + 21)
  let regionEnd :=
    min (regionStart +
          ((lines.drop startLine).take (endLine - startLine)).foldr
            (fun l s => l.length + 1 + s) 0)
      docText.length
  jsSubstring docText regionStart regionEnd

/-- `resolveStage1(target, docText)`: the line-hint fast path.  Builds the
±20-line region around the hint and looks for a literal occurrence of
`target.exact` inside it. -/
def resolveStage1 (target : CommentTarget) (docText : Str) :
    Except Unit (Option ResolvedAnchor) :=
  match target.lineHint with
  | none => .ok none
  | some lineHint =>
    let lines := docText.splitOn '\n'
    let startLine := lineHint - 20
    match sumLinesBefore lines startLine with
    | .error e => .error e
    | .ok regionStart =>
      let region := stage1Window docText lineHint regionStart
      match jsIndexOf region target.exact 0 with
      | none => .ok none
      | some idx =>
        let absoluteFrom := regionStart + idx
        .ok (some
          { fromPos := absoluteFrom
            toPos := absoluteFrom + target.exact.length
            line := computeLineNumber docText absoluteFrom
            stage := 1 })

/-- A stage-2 candidate occurrence with its context score. -/
structure Candidate where
  fromPos : Nat
  toPos : Nat
  score : ℚ

/-- The stage-2 collection loop: scan the document for every literal
occurrence of `target.exact`, scoring each; advances `searchFrom` to
`idx + 1` after each hit. -/
def collectCandidates (target : CommentTarget) (docText : Str)
    (searchFrom : Nat) : List Candidate :=
  if h : searchFrom < docText.length then
    match hidx : jsIndexOf docText target.exact searchFrom with
    | none => []
    | some idx =>
      { fromPos := idx
        toPos := idx + target.exact.length
        score := scoreContext target docText idx (idx + target.exact.length) }
        :: collectCandidates target docText (idx + 1)
  else []
termination_by docText.length - searchFrom
decreasing_by
  have haux : ∀ l j i, indexOfAux target.exact l j = some i → j ≤ i := by
    intro l
    induction l with
    | nil =>
      intro j i hj
      simp only [indexOfAux] at hj
      split at hj
      · exact (Option.some_inj.mp hj) ▸ le_refl j
      · exact absurd hj (by simp)
    | cons c rest ih =>
      intro j i hj
      simp only [indexOfAux] at hj
      split at hj
      · exact (Option.some_inj.mp hj) ▸ le_refl j
      · exact le_trans (Nat.le_succ j) (ih (j + 1) i hj)
  have hge : min searchFrom docText.length ≤ idx := haux _ _ _ hidx
  have : searchFrom ≤ idx := by
    have : min searchFrom docText.length = searchFrom := min_eq_left (le_of_lt h)
    omega
  omega

/-- Stable insertion into a score-descending list (a later element with an
equal score stays after the earlier ones, as with JS's stable sort). -/
def insertByScore (c : Candidate) : List Candidate → List Candidate
  | [] => [c]
  | d :: ds => if d.score ≤ c.score then c :: d :: ds else d :: insertByScore c ds

/-- `candidates.sort((a, b) => b.score - a.score)`: the stable descending
sort by score. -/
def sortByScoreDesc (l : List Candidate) : List Candidate :=
  l.foldr insertByScore []

/-- `resolveStage2(target, docText)`: global exact search, context-scored;
the highest-scoring candidate wins (first occurrence on ties). -/
def resolveStage2 (target : CommentTarget) (docText : Str) :
    Option ResolvedAnchor :=
  let candidates := collectCandidates target docText 0
  match (sortByScoreDesc candidates).head? with
  | none => none
  | some best =>
    some
      { fromPos := best.fromPos
        toPos := best.toPos
        line := computeLineNumber docText best.fromPos
        stage := 2 }

/-- `resolveStage3(target, docText, threshold)`: whitespace-normalized
fuzzy match, validated by the context score. -/
def resolveStage3 (target : CommentTarget) (docText : Str) (threshold : ℚ) :
    Option ResolvedAnchor :=
  match fuzzyMatchInOriginal target.exact docText threshold with
  | none => none
  | some result =>
    let f := result.index
    let t := f + result.length
    let contextScore := scoreContext target docText f t
    if contextScore < 0 then none
    else
      some
        { fromPos := f
          toPos := t
          line := computeLineNumber docText f
          stage := 3 }

/-- `resolveAnchor(target, docText, threshold)`: the 3-stage pipeline. -/
def resolveAnchor (target : CommentTarget) (docText : Str) (threshold : ℚ) :
    Except Unit (Option ResolvedAnchor) :=
  match resolveStage1 target docText with
  | .error e => .error e
  | .ok (some stage1) => .ok (some stage1)
  | .ok none =>
    match resolveStage2 target docText with
    | some stage2 => .ok (some stage2)
    | none => .ok (resolveStage3 target docText threshold)

/-- Comment status (`'active' | 'orphaned'`). -/
inductive CommentStatus where
  | active
  | orphaned
deriving DecidableEq, Repr

/-- A stored comment, restricted to the fields `resolveAnchors` reads or
writes (`id`, `target`, `status`); the untouched payload fields (body,
timestamps) are elided.  `anchored` / `note` / `reply` mirror the
`CommentData` union of `types.ts`; only anchored comments carry anchors. -/
inductive CommentData where
  | anchored (id : Nat) (target : CommentTarget) (status : CommentStatus)
  | note (id : Nat)
  | reply (id : Nat) (parentId : Nat)
deriving DecidableEq, Repr

/-- The per-comment body of `CommentStore.resolveAnchors`'s loop: returns
the updated comment, whether a persisted field changed, and the result-map
entry (when the anchor resolved).  `f` is the injected resolver
(`this.resolveAnchorFn`). -/
def reconcileComment (f : CommentTarget → Str → ℚ → Option ResolvedAnchor)
    (docText : Str) (threshold : ℚ) :
    CommentData → CommentData × Bool × Option (Nat × ResolvedAnchor)
  | .anchored id target status =>
    match f target docText threshold with
    | some anchor =>
      if status = .orphaned then
        (.anchored id { target with lineHint := some anchor.line } .active,
          true, some (id, anchor))
      else if target.lineHint ≠ some anchor.line then
        (.anchored id { target with lineHint := some anchor.line } status,
          true, some (id, anchor))
      else
        (.anchored id target status, false, some (id, anchor))
    | none =>
      if status = .active then (.anchored id target .orphaned, true, none)
      else (.anchored id target status, false, none)
  | c => (c, false, none)

/-- Output of one `resolveAnchors` pass: the returned id → anchor map (in
insertion order), the comment records after the in-place mutations, and
whether the pass invoked `scheduleSave` (it does so exactly when its
internal `changed` flag was set). -/
structure ReconcileResult where
  results : List (Nat × ResolvedAnchor)
  comments : List CommentData
  scheduledSave : Bool

/-- `CommentStore.resolveAnchors(notePath, docText, threshold)` with the
stored comments passed explicitly and the injected resolver `f`:
run the resolver over every anchored comment, flip statuses, refresh line
hints, and schedule a debounced save when anything changed. -/
def resolveAnchors (f : CommentTarget → Str → ℚ → Option ResolvedAnchor)
    (comments : List CommentData) (docText : Str) (threshold : ℚ) :
    ReconcileResult :=
  let processed := comments.map (reconcileComment f docText threshold)
  { results := processed.filterMap (fun p => p.2.2)
    comments := processed.map (fun p => p.1)
    scheduledSave := processed.any (fun p => p.2.1) }

/-! ### Definitions following the specification's words

These are not translations of the source; they state what the spec (or a
claim) asserts, to be compared with the implementation. -/

/-- Modelled from the spec: the scan order claim C5 asserts — earliest
start position first, then shortest window length — over the same set of
windows `fuzzyMatch` enumerates. -/
def specScanPairsByStart (nLen hayLen : Nat) (maxD : ℤ) : List (Nat × Nat) :=
  let minW : ℤ := max 1 ((nLen : ℤ) - maxD)
  let hi : ℤ := min ((nLen : ℤ) + maxD) (hayLen : ℤ)
  let lo : Nat := minW.toNat
  let cnt : Nat := (hi - minW + 1).toNat
  (List.range (hayLen + 1)).flatMap
    (fun i => ((List.range' lo cnt).filter (fun w => decide (i + w ≤ hayLen))).map
      (fun w => (w, i)))

/-- Modelled from the spec: the suffix contribution claim C6 asserts — the
common run measured from the suffix's join point, i.e. from the leading
ends of the two normalized strings — divided by the shorter normalized
length. -/
def specSuffixOverlapScore (expected actual : Str) : ℚ :=
  let normExpected := normalizeWhitespace expected
  let normActual := normalizeWhitespace actual
  if normExpected = normActual then 2
  else
    (commonRun normExpected normActual : ℚ) /
      ((min normExpected.length normActual.length : Nat) : ℚ)

/-! ### Proof-infrastructure definitions -/

/-- Number of normalized characters emitted for a processed prefix `P` of
the walked text (with run-collapsing, starting outside a run). -/
def emitN (P : Str) : Nat := (collapse P false).length

/-- Whether a processed prefix ends in whitespace (the walk's
`prevWasSpace` after processing it). -/
def wsLast (P : Str) : Bool :=
  match P.getLast? with
  | some c => isWS c
  | none => false

/-! ## Helper lemmas -/

theorem reconcileComment_anchored
    (f : CommentTarget → Str → ℚ → Option ResolvedAnchor)
    (docText : Str) (threshold : ℚ)
    (id : Nat) (target : CommentTarget) (status : CommentStatus) :
    ∃ target2 status2,
      (reconcileComment f docText threshold (.anchored id target status)).1 =
        .anchored id target2 status2 ∧
      (status2 = .active ↔ (f target docText threshold).isSome) := by
  rcases hf : f target docText threshold with _ | a
  · by_cases hs : status = .active
    · exact ⟨target, .orphaned, by simp [reconcileComment, hf, hs], by simp [hf]⟩
    · have ho : status = .orphaned := by cases status <;> simp_all
      exact ⟨target, .orphaned, by simp [reconcileComment, hf, hs, ho],
        by simp [hf]⟩
  · by_cases hs : status = .orphaned
    · exact ⟨{ target with lineHint := some a.line }, .active,
        by simp [reconcileComment, hf, hs], by simp [hf]⟩
    · have hact : status = .active := by cases status <;> simp_all
      by_cases hl : target.lineHint = some a.line
      · exact ⟨target, status, by simp [reconcileComment, hf, hs, hl],
          by simp [hf, hact]⟩
      · exact ⟨{ target with lineHint := some a.line }, status,
          by simp [reconcileComment, hf, hs, hl], by simp [hf, hact]⟩

theorem reconcileComment_changed_iff
    (f : CommentTarget → Str → ℚ → Option ResolvedAnchor)
    (docText : Str) (threshold : ℚ) (c : CommentData) :
    (reconcileComment f docText threshold c).2.1 = true ↔
      (reconcileComment f docText threshold c).1 ≠ c := by
  cases c with
  | anchored id target status =>
    rcases hf : f target docText threshold with _ | a
    · cases status <;> simp [reconcileComment, hf]
    · cases status with
      | active =>
        by_cases hl : target.lineHint = some a.line
        · simp [reconcileComment, hf, hl]
        · have hne : ({ target with lineHint := some a.line } : CommentTarget)
              ≠ target :=
            fun h => hl (congrArg CommentTarget.lineHint h).symm
          simp [reconcileComment, hf, hl, hne]
      | orphaned => simp [reconcileComment, hf]
  | note id => simp [reconcileComment]
  | reply id p => simp [reconcileComment]

theorem length_insertByScore (c : Candidate) (l : List Candidate) :
    (insertByScore c l).length = l.length + 1 := by
  induction l with
  | nil => rfl
  | cons d t ih => by_cases h : d.score ≤ c.score <;> simp [insertByScore, h, ih]

theorem mem_insertByScore {c d : Candidate} {l : List Candidate}
    (h : d ∈ insertByScore c l) : d = c ∨ d ∈ l := by
  induction l with
  | nil => simpa [insertByScore] using h
  | cons e t ih =>
    by_cases he : e.score ≤ c.score
    · rcases (by simpa [insertByScore, he] using h : d = c ∨ d = e ∨ d ∈ t) with
        h1 | h1 | h1
      · exact Or.inl h1
      · exact Or.inr (by simp [h1])
      · exact Or.inr (by simp [h1])
    · rcases (by simpa [insertByScore, he] using h : d = e ∨ d ∈ insertByScore c t)
        with h1 | h1
      · exact Or.inr (by simp [h1])
      · rcases ih h1 with h2 | h2
        · exact Or.inl h2
        · exact Or.inr (by simp [h2])

theorem mem_sortByScoreDesc {d : Candidate} {l : List Candidate}
    (h : d ∈ sortByScoreDesc l) : d ∈ l := by
  induction l with
  | nil => simpa [sortByScoreDesc] using h
  | cons c t ih =>
    rcases mem_insertByScore (by simpa [sortByScoreDesc] using h) with h1 | h1
    · simp [h1]
    · exact List.mem_cons_of_mem _ (ih (by simpa [sortByScoreDesc] using h1))

theorem sortByScoreDesc_ne_nil {l : List Candidate} (h : l ≠ []) :
    sortByScoreDesc l ≠ [] := by
  intro hcon
  have hlen := congrArg List.length hcon
  cases l with
  | nil => exact h rfl
  | cons c t =>
    rw [sortByScoreDesc] at hlen
    simp only [List.foldr_cons, length_insertByScore, List.length_nil] at hlen
    omega

theorem indexOfAux_spec (n : Str) : ∀ (l : Str) (i : Nat),
    (indexOfAux n l i = none ∧ ∀ k, ¬ n.isPrefixOf (l.drop k)) ∨
    (∃ k, indexOfAux n l i = some (i + k) ∧ k ≤ l.length ∧
      n.isPrefixOf (l.drop k) ∧ ∀ j < k, ¬ n.isPrefixOf (l.drop j)) := by
  intro l
  induction l with
  | nil =>
    intro i
    by_cases h : n.isPrefixOf ([] : Str)
    · right
      exact ⟨0, by simp [indexOfAux, h], by simp, by simpa using h, by omega⟩
    · left
      exact ⟨by simp [indexOfAux, h], fun k => by simpa using h⟩
  | cons c rest ih =>
    intro i
    by_cases h : n.isPrefixOf (c :: rest)
    · right
      exact ⟨0, by simp [indexOfAux, h], by simp, by simpa using h, by omega⟩
    · rcases ih (i + 1) with ⟨h1, h2⟩ | ⟨k, h1, hk, h2, h3⟩
      · left
        refine ⟨by simp [indexOfAux, h, h1], ?_⟩
        intro k
        cases k with
        | zero => simpa using h
        | succ k => simpa using h2 k
      · right
        refine ⟨k + 1, ?_, by simpa using Nat.succ_le_succ hk, by simpa using h2, ?_⟩
        · rw [show i + (k + 1) = i + 1 + k by omega]
          simp [indexOfAux, h, h1]
        · intro j hj
          cases j with
          | zero => simpa using h
          | succ j => simpa using h3 j (by omega)

theorem jsIndexOf_spec (hay n : Str) :
    (jsIndexOf hay n 0 = none ∧ ∀ k, ¬ n.isPrefixOf (hay.drop k)) ∨
    (∃ idx, jsIndexOf hay n 0 = some idx ∧ idx ≤ hay.length ∧
      n.isPrefixOf (hay.drop idx) ∧ ∀ j < idx, ¬ n.isPrefixOf (hay.drop j)) := by
  have h := indexOfAux_spec n hay 0
  rcases h with ⟨h1, h2⟩ | ⟨k, h1, hk, h2, h3⟩
  · left
    exact ⟨by simpa [jsIndexOf] using h1, h2⟩
  · right
    exact ⟨k, by simpa [jsIndexOf] using h1, hk, h2, h3⟩

theorem jsIndexOf_nil_needle (hay : Str) : jsIndexOf hay [] 0 = some 0 := by
  cases hay <;> simp [jsIndexOf, indexOfAux, List.isPrefixOf]

theorem sumLinesBefore_ok :
    ∀ (lines : List Str) (k : Nat), k ≤ lines.length →
      ∃ n, sumLinesBefore lines k = .ok n := by
  intro lines
  induction lines with
  | nil =>
    intro k hk
    cases k with
    | zero => exact ⟨0, rfl⟩
    | succ k => exact absurd hk (by simp)
  | cons l ls ih =>
    intro k hk
    cases k with
    | zero => exact ⟨0, rfl⟩
    | succ k =>
      obtain ⟨n, hn⟩ := ih k (by simpa using hk)
      exact ⟨l.length + 1 + n, by simp [sumLinesBefore, hn, Except.map]⟩

/-! ## Claims -/

/-- C1: after a `resolveAnchors` pass, an anchored comment's status is
`active` if and only if the injected resolver succeeded on that comment's
(pre-pass) target against the document snapshot.  In particular, removing
the target text orphans an active comment on the next pass, and a later
pass on which the resolver succeeds re-activates it. -/
theorem C1_reconcile_status_iff
    (f : CommentTarget → Str → ℚ → Option ResolvedAnchor)
    (comments : List CommentData) (docText : Str) (threshold : ℚ)
    (i : Nat) (id : Nat) (target : CommentTarget) (status : CommentStatus)
    (hc : comments[i]? = some (.anchored id target status)) :
    ∃ target2 status2,
      (resolveAnchors f comments docText threshold).comments[i]? =
        some (.anchored id target2 status2) ∧
      (status2 = .active ↔ (f target docText threshold).isSome) := by
  obtain ⟨t2, s2, h1, h2⟩ :=
    reconcileComment_anchored f docText threshold id target status
  refine ⟨t2, s2, ?_, h2⟩
  simp only [resolveAnchors]
  rw [List.getElem?_map, List.getElem?_map, hc]
  simp [h1]

/-- Witness for C1 at a concrete input: one active anchored comment and a
resolver that fails; the post-pass status is determined by the iff. -/
theorem C1_reconcile_status_iff_witness :
    ([CommentData.anchored 7 ⟨['a'], [], [], none, none⟩ .active][0]? =
      some (.anchored 7 ⟨['a'], [], [], none, none⟩ .active)) ∧
    ∃ target2 status2,
      (resolveAnchors (fun _ _ _ => none)
          [CommentData.anchored 7 ⟨['a'], [], [], none, none⟩ .active]
          ['b'] 0).comments[0]? =
        some (.anchored 7 target2 status2) ∧
      (status2 = .active ↔
        ((fun (_ : CommentTarget) (_ : Str) (_ : ℚ) =>
          (none : Option ResolvedAnchor)) ⟨['a'], [], [], none, none⟩ ['b']
            (0 : ℚ)).isSome) :=
  ⟨rfl, C1_reconcile_status_iff (fun _ _ _ => none) _ ['b'] 0 0 7
    ⟨['a'], [], [], none, none⟩ .active rfl⟩

/-- C7 counterexample: a pass over one active anchored comment whose
anchor fails to resolve *does* perform a persistence side effect — it
invokes `scheduleSave` itself (and its return value carries no
changed-flag; the map is all the caller gets back). -/
theorem C7_counterexample_schedules_save :
    (resolveAnchors (fun _ _ _ => none)
      [CommentData.anchored 0 ⟨['a'], [], [], none, none⟩ .active]
      [] 0).scheduledSave = true := rfl

/-- C7 (amended): `resolveAnchors` returns only the id → anchor map; it
tracks internally whether any comment's persisted fields changed and, when
they did, itself schedules a debounced save — the save is scheduled
exactly when the pass changed some comment record. -/
theorem C7_save_iff_changed
    (f : CommentTarget → Str → ℚ → Option ResolvedAnchor)
    (comments : List CommentData) (docText : Str) (threshold : ℚ) :
    (resolveAnchors f comments docText threshold).scheduledSave = true ↔
      (resolveAnchors f comments docText threshold).comments ≠ comments := by
  simp only [resolveAnchors]
  induction comments with
  | nil => simp
  | cons c t ih =>
    simp only [List.map_cons, List.any_cons, Bool.or_eq_true, ne_eq,
      List.cons.injEq, not_and_or] at ih ⊢
    exact or_congr (reconcileComment_changed_iff f docText threshold c) ih

/-- C2 counterexample: resolving an anchor whose `exact` is the empty
string does *not* return "no match" — with a line hint present, stage 1
returns a zero-width match. -/
theorem C2_counterexample_empty_exact_matches :
    resolveAnchor ⟨[], [], [], none, some 0⟩ [] 0 =
      .ok (some ⟨0, 0, 0, 1⟩) ∧
    (Except.ok (some (⟨0, 0, 0, 1⟩ : ResolvedAnchor)) :
      Except Unit (Option ResolvedAnchor)) ≠ .ok none :=
  ⟨rfl, by simp⟩

/-- C10 counterexample: with an empty `exact` and a stale line hint, the
stage-1 result lies outside the document: `from = to = 2` on a document of
length 1. -/
theorem C10_counterexample_out_of_bounds :
    resolveAnchor ⟨[], [], [], none, some 21⟩ ['a'] 0 =
      .ok (some ⟨2, 2, 0, 1⟩) ∧
    ¬ ((2 : Nat) ≤ (['a'] : Str).length) :=
  ⟨rfl, by decide⟩

/-- C4: when the target carries a line hint and `target.exact` occurs
verbatim inside the ±20-line window around it, resolution returns the
first such occurrence in the window as a stage-1 anchor — it never falls
through to stage 2 or 3 (the conclusion holds for every document, in
particular when better-context occurrences exist elsewhere). -/
theorem C4_stage1_priority (target : CommentTarget) (docText : Str)
    (threshold : ℚ) (hint regionStart : Nat)
    (hhint : target.lineHint = some hint)
    (hsum : sumLinesBefore (docText.splitOn '\n') (hint - 20) = .ok regionStart)
    (hocc : ∃ j, target.exact.isPrefixOf
      ((stage1Window docText hint regionStart).drop j)) :
    ∃ idx,
      target.exact.isPrefixOf
        ((stage1Window docText hint regionStart).drop idx) ∧
      (∀ j < idx, ¬ target.exact.isPrefixOf
        ((stage1Window docText hint regionStart).drop j)) ∧
      resolveAnchor target docText threshold =
        .ok (some
          { fromPos := regionStart + idx
            toPos := regionStart + idx + target.exact.length
            line := computeLineNumber docText (regionStart + idx)
            stage := 1 }) := by
  rcases jsIndexOf_spec (stage1Window docText hint regionStart) target.exact
    with ⟨hnone, hall⟩ | ⟨idx, hfind, hle, hpre, hleast⟩
  · obtain ⟨j, hj⟩ := hocc
    exact absurd hj (hall j)
  · refine ⟨idx, hpre, hleast, ?_⟩
    simp [resolveAnchor, resolveStage1, hhint, hsum, hfind]

/-- Witness for C4: document `"a"`, target `"a"` hinted at line 0; the
first (only) occurrence in the window is returned by stage 1. -/
theorem C4_stage1_priority_witness :
    (∃ j, (['a'] : Str).isPrefixOf ((stage1Window ['a'] 0 0).drop j)) ∧
    ∃ idx,
      (['a'] : Str).isPrefixOf ((stage1Window ['a'] 0 0).drop idx) ∧
      (∀ j < idx, ¬ (['a'] : Str).isPrefixOf ((stage1Window ['a'] 0 0).drop j)) ∧
      resolveAnchor ⟨['a'], [], [], none, some 0⟩ ['a'] 0 =
        .ok (some
          { fromPos := 0 + idx
            toPos := 0 + idx + (['a'] : Str).length
            line := computeLineNumber ['a'] (0 + idx)
            stage := 1 }) :=
  ⟨⟨0, by decide⟩,
    C4_stage1_priority ⟨['a'], [], [], none, some 0⟩ ['a'] 0 0 0 rfl rfl
      ⟨0, by decide⟩⟩

theorem jsIndexOf_some (hay n : Str) (s : Nat) (hs : s < hay.length)
    (idx : Nat) (h : jsIndexOf hay n s = some idx) :
    s ≤ idx ∧ idx ≤ hay.length ∧ n.isPrefixOf (hay.drop idx) := by
  rw [jsIndexOf, min_eq_left (le_of_lt hs)] at h
  rcases indexOfAux_spec n (hay.drop s) s with ⟨h1, _⟩ | ⟨k, h1, hk, h2, _⟩
  · rw [h1] at h
    exact absurd h (by simp)
  · rw [h1] at h
    obtain rfl : idx = s + k := (Option.some_inj.mp h).symm
    refine ⟨by omega, ?_, ?_⟩
    · rw [List.length_drop] at hk
      omega
    · rw [List.drop_drop] at h2
      exact h2

theorem collectCandidates_mem (target : CommentTarget) (docText : Str) :
    ∀ s, ∀ c ∈ collectCandidates target docText s,
      c.toPos = c.fromPos + target.exact.length ∧
      target.exact.isPrefixOf (docText.drop c.fromPos) ∧
      c.fromPos ≤ docText.length := by
  intro s
  induction s using collectCandidates.induct target docText with
  | case1 s hs hnone =>
    intro c hc
    rw [collectCandidates, dif_pos hs] at hc
    split at hc
    · simp at hc
    · rename_i idx heq
      rw [hnone] at heq
      exact absurd heq (by simp)
  | case2 s hs idx hidx ih =>
    intro c hc
    rw [collectCandidates, dif_pos hs] at hc
    split at hc
    · simp at hc
    · rename_i idx2 heq
      rw [hidx] at heq
      obtain rfl : idx = idx2 := Option.some_inj.mp heq
      rcases List.mem_cons.mp hc with rfl | hmem
      · obtain ⟨_, h2, h3⟩ := jsIndexOf_some docText target.exact s hs idx hidx
        exact ⟨rfl, h3, h2⟩
      · exact ih c hmem
  | case3 s hs =>
    intro c hc
    rw [collectCandidates, dif_neg hs] at hc
    simp at hc

theorem collectCandidates_ne_nil_of_empty_exact (target : CommentTarget)
    (docText : Str) (hexact : target.exact = []) (hdoc : docText ≠ []) :
    collectCandidates target docText 0 ≠ [] := by
  have hlen : 0 < docText.length := List.length_pos.mpr hdoc
  rw [collectCandidates, dif_pos hlen]
  split
  · rename_i heq
    rw [hexact, jsIndexOf_nil_needle] at heq
    exact absurd heq (by simp)
  · simp

theorem head?_mem_of_sortByScoreDesc {l : List Candidate} {b : Candidate}
    (h : (sortByScoreDesc l).head? = some b) : b ∈ l := by
  cases hs : sortByScoreDesc l with
  | nil => rw [hs] at h; exact absurd h (by simp)
  | cons x t =>
    rw [hs] at h
    obtain rfl : x = b := by simpa using h
    exact mem_sortByScoreDesc (by rw [hs]; exact List.mem_cons_self x t)

/-- C2 (amended): with an empty `exact`, the resolver returns "no match"
only when the line hint is absent and the document is empty; with a line
hint at most 20 past the line count it returns a zero-width stage-1 match,
and without a line hint on a nonempty document a zero-width stage-2 match
(none of these cases raises; a hint more than 20 lines past the end is
the one input on which stage 1 throws). -/
theorem C2_empty_exact_behaviour (target : CommentTarget) (docText : Str)
    (threshold : ℚ) (hexact : target.exact = []) :
    (target.lineHint = none → docText = [] →
      resolveAnchor target docText threshold = .ok none) ∧
    (target.lineHint = none → docText ≠ [] →
      ∃ a, resolveAnchor target docText threshold = .ok (some a) ∧
        a.fromPos = a.toPos ∧ a.stage = 2) ∧
    (∀ hint, target.lineHint = some hint →
      hint ≤ (docText.splitOn '\n').length + 20 →
      ∃ a, resolveAnchor target docText threshold = .ok (some a) ∧
        a.fromPos = a.toPos ∧ a.stage = 1) := by
  refine ⟨?_, ?_, ?_⟩
  · intro hlh hdoc
    subst hdoc
    have hcc : collectCandidates target [] 0 = [] := by
      rw [collectCandidates, dif_neg (by simp)]
    simp only [resolveAnchor, resolveStage1, hlh]
    simp only [resolveStage2, hcc]
    simp [resolveStage3, fuzzyMatchInOriginal, fuzzyMatch, fuzzyMatchCore,
      hexact, normalizeWhitespace, collapse, jsTrim, sortByScoreDesc]
  · intro hlh hdoc
    have hne := collectCandidates_ne_nil_of_empty_exact target docText hexact hdoc
    have hsne := sortByScoreDesc_ne_nil hne
    cases hb : (sortByScoreDesc (collectCandidates target docText 0)).head? with
    | none => exact absurd (List.head?_eq_none_iff.mp hb) hsne
    | some best =>
      have hmem := head?_mem_of_sortByScoreDesc hb
      obtain ⟨hto, _, _⟩ := collectCandidates_mem target docText 0 best hmem
      refine ⟨⟨best.fromPos, best.toPos,
        computeLineNumber docText best.fromPos, 2⟩, ?_, ?_, rfl⟩
      · simp only [resolveAnchor, resolveStage1, hlh]
        simp only [resolveStage2, hb]
      · simp [hto, hexact]
  · intro hint hlh hle
    have hk : hint - 20 ≤ (docText.splitOn '\n').length := by omega
    obtain ⟨rs, hrs⟩ := sumLinesBefore_ok (docText.splitOn '\n') (hint - 20) hk
    refine ⟨⟨rs, rs, computeLineNumber docText rs, 1⟩, ?_, rfl, rfl⟩
    simp only [resolveAnchor, resolveStage1, hlh, hrs]
    rw [hexact, jsIndexOf_nil_needle]
    simp

/-- Witness for C2 (amended) at a concrete input: empty `exact`, line hint
0, document `"a"` — a zero-width stage-1 match. -/
theorem C2_empty_exact_behaviour_witness :
    ∃ a, resolveAnchor ⟨[], [], [], none, some 0⟩ ['a'] 0 = .ok (some a) ∧
      a.fromPos = a.toPos ∧ a.stage = 1 :=
  (C2_empty_exact_behaviour ⟨[], [], [], none, some 0⟩ ['a'] 0 rfl).2.2 0 rfl
    (by decide)

theorem commonRun_le : ∀ (a b : Str), commonRun a b ≤ min a.length b.length
  | [], b => by simp [commonRun]
  | a :: as, [] => by simp [commonRun]
  | x :: xs, y :: ys => by
    by_cases h : x = y
    · have := commonRun_le xs ys
      simp only [commonRun, if_pos h, List.length_cons]
      omega
    · simp [commonRun, h]

theorem commonRun_spec : ∀ (a b : Str),
    a.take (commonRun a b) = b.take (commonRun a b) ∧
    ∀ j, j ≤ a.length → j ≤ b.length → a.take j = b.take j →
      j ≤ commonRun a b
  | [], b => by
    refine ⟨by simp [commonRun], ?_⟩
    intro j hj _ _
    simpa [commonRun] using hj
  | a :: as, [] => by
    refine ⟨by simp [commonRun], ?_⟩
    intro j _ hj _
    simpa [commonRun] using hj
  | x :: xs, y :: ys => by
    obtain ⟨ih1, ih2⟩ := commonRun_spec xs ys
    by_cases h : x = y
    · subst h
      refine ⟨by simp [commonRun, ih1], ?_⟩
      intro j hj1 hj2 hj3
      cases j with
      | zero => simp [commonRun]
      | succ j =>
        simp only [List.take_succ_cons, List.cons.injEq] at hj3
        have hj := ih2 j (by simpa using hj1) (by simpa using hj2) hj3.2
        have hcr : commonRun (x :: xs) (x :: ys) = commonRun xs ys + 1 := by
          simp [commonRun]
        rw [hcr]
        omega
    · refine ⟨by simp [commonRun, h], ?_⟩
      intro j _ _ hj3
      cases j with
      | zero => simp
      | succ j =>
        simp only [List.take_succ_cons, List.cons.injEq] at hj3
        exact absurd hj3.1 h

/-- The backward-scanning loop of `computeOverlapScore` computes the
longest common trailing run: its value is maximal among all `k` for which
the last `k` characters of the two strings agree. -/
theorem commonRun_reverse_spec (a b : Str) :
    commonRun a.reverse b.reverse ≤ a.length ∧
    commonRun a.reverse b.reverse ≤ b.length ∧
    a.drop (a.length - commonRun a.reverse b.reverse) =
      b.drop (b.length - commonRun a.reverse b.reverse) ∧
    ∀ j, j ≤ a.length → j ≤ b.length →
      a.drop (a.length - j) = b.drop (b.length - j) →
      j ≤ commonRun a.reverse b.reverse := by
  have hle := commonRun_le a.reverse b.reverse
  simp only [List.length_reverse] at hle
  have hrev : ∀ (l : Str) (j : Nat),
      l.reverse.take j = (l.drop (l.length - j)).reverse := by
    intro l j
    exact List.take_reverse
  obtain ⟨h1, h2⟩ := commonRun_spec a.reverse b.reverse
  set k := commonRun a.reverse b.reverse with hk
  refine ⟨by omega, by omega, ?_, ?_⟩
  · rw [hrev a k, hrev b k] at h1
    exact List.reverse_inj.mp h1
  · intro j hj1 hj2 hj3
    refine h2 j (by simpa using hj1) (by simpa using hj2) ?_
    rw [hrev a j, hrev b j, hj3]

theorem computeOverlapScore_bounds (e a : Str) :
    0 ≤ computeOverlapScore e a ∧ computeOverlapScore e a ≤ 2 := by
  simp only [computeOverlapScore]
  split
  · norm_num
  · split
    · norm_num
    · have hle : commonRun (normalizeWhitespace e).reverse
          (normalizeWhitespace a).reverse ≤
          min (normalizeWhitespace e).length (normalizeWhitespace a).length := by
        have := commonRun_le (normalizeWhitespace e).reverse
          (normalizeWhitespace a).reverse
        simpa using this
      set m := commonRun (normalizeWhitespace e).reverse
        (normalizeWhitespace a).reverse
      set n := min (normalizeWhitespace e).length (normalizeWhitespace a).length
      constructor
      · positivity
      · rcases Nat.eq_zero_or_pos n with h0 | hpos
        · have hm : m = 0 := by omega
          simp [hm]
        · have hdiv : (m : ℚ) / (n : ℚ) ≤ 1 := by
            rw [div_le_one (by exact_mod_cast hpos)]
            exact_mod_cast hle
          linarith

theorem scoreContext_bounds (target : CommentTarget) (docText : Str)
    (mf mt : Nat) :
    0 ≤ scoreContext target docText mf mt ∧
      scoreContext target docText mf mt ≤ 6 := by
  have key : ∀ x y z : ℚ, 0 ≤ x → x ≤ 2 → 0 ≤ y → y ≤ 2 → 0 ≤ z → z ≤ 2 →
      0 ≤ x + y + z ∧ x + y + z ≤ 6 := by
    intro x y z hx1 hx2 hy1 hy2 hz1 hz2
    constructor <;> linarith
  simp only [scoreContext]
  refine key _ _ _ ?_ ?_ ?_ ?_ ?_ ?_
  · split
    · exact (computeOverlapScore_bounds _ _).1
    · exact le_refl 0
  · split
    · exact (computeOverlapScore_bounds _ _).2
    · norm_num
  · split
    · exact (computeOverlapScore_bounds _ _).1
    · exact le_refl 0
  · split
    · exact (computeOverlapScore_bounds _ _).2
    · norm_num
  · split
    · norm_num
    · split
      · norm_num
      · split
        · split
          · norm_num
          · norm_num
        · norm_num
  · split
    · norm_num
    · split
      · norm_num
      · split
        · split
          · norm_num
          · norm_num
        · norm_num

/-- C9: the context score is always in `[0, 6]` (each of the prefix,
suffix and heading components contributes between 0 and 2), so the
stage-3 branch that rejects a fuzzy candidate on a negative context score
is unreachable: every candidate the fuzzy matcher returns is accepted by
stage 3.  (Scores are modelled as rationals with division by zero read as
0; in JS an all-whitespace context string produces NaN there, which the
`< 0` rejection test also lets through.) -/
theorem C9_context_score_nonneg (target : CommentTarget) (docText : Str)
    (mf mt : Nat) (threshold : ℚ) :
    (0 ≤ scoreContext target docText mf mt ∧
      scoreContext target docText mf mt ≤ 6) ∧
    ∀ r, fuzzyMatchInOriginal target.exact docText threshold = some r →
      resolveStage3 target docText threshold =
        some ⟨r.index, r.index + r.length,
          computeLineNumber docText r.index, 3⟩ := by
  refine ⟨scoreContext_bounds target docText mf mt, ?_⟩
  intro r hr
  have h0 := (scoreContext_bounds target docText r.index (r.index + r.length)).1
  simp only [resolveStage3, hr]
  rw [if_neg (not_lt.mpr h0)]

/-- Witness for C9 at a concrete input: on document `"a"` with target
`"a"` the fuzzy matcher returns a candidate and stage 3 accepts it. -/
theorem C9_context_score_nonneg_witness :
    fuzzyMatchInOriginal ['a'] ['a'] 0 = some ⟨0, 1, 0⟩ ∧
    resolveStage3 ⟨['a'], [], [], none, none⟩ ['a'] 0 =
      some ⟨0, 0 + 1, computeLineNumber ['a'] 0, 3⟩ := by
  have hf : fuzzyMatchInOriginal ['a'] ['a'] 0 = some ⟨0, 1, 0⟩ := by
    have hfm : fuzzyMatch ['a'] (normalizeWhitespace ['a']) 0 = some ⟨0, 1, 0⟩ := by
      rw [fuzzyMatch, mul_zero, Int.floor_zero]
      decide
    rw [fuzzyMatchInOriginal, hfm]
    rfl
  exact ⟨hf,
    (C9_context_score_nonneg ⟨['a'], [], [], none, none⟩ ['a'] 0 1 0).2
      ⟨0, 1, 0⟩ hf⟩

/-- C6 counterexample: with recorded suffix `"abcx"` and following text
`"abcy"` (matching leading run `abc`, mismatching last character), the
claim's leading-run rule gives 3/4, but the code's suffix contribution is
0 — `computeOverlapScore` scans from the trailing ends for the suffix
too. -/
theorem C6_counterexample_suffix_direction :
    scoreContext ⟨['q'], [], ['a','b','c','x'], none, none⟩
      ['a','b','c','y'] 0 0 = 0 ∧
    specSuffixOverlapScore ['a','b','c','x'] ['a','b','c','y'] = 3 / 4 ∧
    (0 : ℚ) ≠ 3 / 4 := by
  refine ⟨?_, ?_, by norm_num⟩
  · have h : scoreContext ⟨['q'], [], ['a','b','c','x'], none, none⟩
        ['a','b','c','y'] 0 0 =
        (0 : ℚ) + ((0 : ℕ) : ℚ) / ((4 : ℕ) : ℚ) + 0 := rfl
    rw [h]
    norm_num
  · have h : specSuffixOverlapScore ['a','b','c','x'] ['a','b','c','y'] =
        ((3 : ℕ) : ℚ) / ((4 : ℕ) : ℚ) := rfl
    rw [h]
    norm_num

/-- C6 (amended): when a recorded context string does not exactly match
the adjacent document text after normalization, its contribution is the
length of the longest common *trailing* run of the two normalized strings
divided by the shorter normalized length — for the prefix (where the
trailing ends are the join point at the match start, as the claim says)
and *also* for the suffix, which the code scores with the same
trailing-run rule rather than from its leading join point. -/
theorem C6_overlap_scores (target : CommentTarget) (docText : Str)
    (mf mt : Nat) (hheading : target.headingContext = none)
    (hpre : target.prefixText ≠ [])
    (hsuf : target.suffixText ≠ [])
    (haP : jsSubstring docText (mf - target.prefixText.length) mf ≠ [])
    (haS : jsSubstring docText mt
      (min docText.length (mt + target.suffixText.length)) ≠ [])
    (hnP : normalizeWhitespace target.prefixText ≠
      normalizeWhitespace (jsSubstring docText (mf - target.prefixText.length) mf))
    (hnS : normalizeWhitespace target.suffixText ≠
      normalizeWhitespace (jsSubstring docText mt
        (min docText.length (mt + target.suffixText.length)))) :
    ∃ k1 k2,
      (let nP := normalizeWhitespace target.prefixText
       let naP := normalizeWhitespace
         (jsSubstring docText (mf - target.prefixText.length) mf)
       k1 ≤ nP.length ∧ k1 ≤ naP.length ∧
       nP.drop (nP.length - k1) = naP.drop (naP.length - k1) ∧
       (∀ j, j ≤ nP.length → j ≤ naP.length →
         nP.drop (nP.length - j) = naP.drop (naP.length - j) → j ≤ k1)) ∧
      (let nS := normalizeWhitespace target.suffixText
       let naS := normalizeWhitespace (jsSubstring docText mt
         (min docText.length (mt + target.suffixText.length)))
       k2 ≤ nS.length ∧ k2 ≤ naS.length ∧
       nS.drop (nS.length - k2) = naS.drop (naS.length - k2) ∧
       (∀ j, j ≤ nS.length → j ≤ naS.length →
         nS.drop (nS.length - j) = naS.drop (naS.length - j) → j ≤ k2)) ∧
      scoreContext target docText mf mt =
        (k1 : ℚ) / ((min (normalizeWhitespace target.prefixText).length
          (normalizeWhitespace
            (jsSubstring docText (mf - target.prefixText.length) mf)).length : Nat) : ℚ)
        + (k2 : ℚ) / ((min (normalizeWhitespace target.suffixText).length
          (normalizeWhitespace (jsSubstring docText mt
            (min docText.length (mt + target.suffixText.length)))).length : Nat) : ℚ) := by
  set aP := jsSubstring docText (mf - target.prefixText.length) mf with haPdef
  set aS := jsSubstring docText mt
    (min docText.length (mt + target.suffixText.length)) with haSdef
  refine ⟨commonRun (normalizeWhitespace target.prefixText).reverse
      (normalizeWhitespace aP).reverse,
    commonRun (normalizeWhitespace target.suffixText).reverse
      (normalizeWhitespace aS).reverse, ?_, ?_, ?_⟩
  · obtain ⟨h1, h2, h3, h4⟩ :=
      commonRun_reverse_spec (normalizeWhitespace target.prefixText)
        (normalizeWhitespace aP)
    exact ⟨h1, h2, h3, h4⟩
  · obtain ⟨h1, h2, h3, h4⟩ :=
      commonRun_reverse_spec (normalizeWhitespace target.suffixText)
        (normalizeWhitespace aS)
    exact ⟨h1, h2, h3, h4⟩
  · have hcosP : computeOverlapScore target.prefixText aP =
        (commonRun (normalizeWhitespace target.prefixText).reverse
          (normalizeWhitespace aP).reverse : ℚ) /
        ((min (normalizeWhitespace target.prefixText).length
          (normalizeWhitespace aP).length : Nat) : ℚ) := by
      rw [computeOverlapScore,
        if_neg (by
          simp only [List.length_eq_zero]
          push_neg
          exact ⟨haP, hpre⟩)]
      rw [if_neg hnP]
    have hcosS : computeOverlapScore target.suffixText aS =
        (commonRun (normalizeWhitespace target.suffixText).reverse
          (normalizeWhitespace aS).reverse : ℚ) /
        ((min (normalizeWhitespace target.suffixText).length
          (normalizeWhitespace aS).length : Nat) : ℚ) := by
      rw [computeOverlapScore,
        if_neg (by
          simp only [List.length_eq_zero]
          push_neg
          exact ⟨haS, hsuf⟩)]
      rw [if_neg hnS]
    simp only [scoreContext, if_pos hpre, if_pos hsuf, hheading]
    rw [← haPdef, ← haSdef, hcosP, hcosS]
    ring

/-- Witness for C6 (amended) at a concrete input: prefix `"p"` against
`"z"`, suffix `"abcx"` against `"abcy"` in document `"zabcy"`. -/
theorem C6_overlap_scores_witness :
    ∃ k1 k2,
      (let nP := normalizeWhitespace ['p']
       let naP := normalizeWhitespace
         (jsSubstring ['z','a','b','c','y'] (1 - (['p'] : Str).length) 1)
       k1 ≤ nP.length ∧ k1 ≤ naP.length ∧
       nP.drop (nP.length - k1) = naP.drop (naP.length - k1) ∧
       (∀ j, j ≤ nP.length → j ≤ naP.length →
         nP.drop (nP.length - j) = naP.drop (naP.length - j) → j ≤ k1)) ∧
      (let nS := normalizeWhitespace ['a','b','c','x']
       let naS := normalizeWhitespace (jsSubstring ['z','a','b','c','y'] 1
         (min (['z','a','b','c','y'] : Str).length
           (1 + (['a','b','c','x'] : Str).length)))
       k2 ≤ nS.length ∧ k2 ≤ naS.length ∧
       nS.drop (nS.length - k2) = naS.drop (naS.length - k2) ∧
       (∀ j, j ≤ nS.length → j ≤ naS.length →
         nS.drop (nS.length - j) = naS.drop (naS.length - j) → j ≤ k2)) ∧
      scoreContext ⟨['q'], ['p'], ['a','b','c','x'], none, none⟩
          ['z','a','b','c','y'] 1 1 =
        (k1 : ℚ) / ((min (normalizeWhitespace ['p']).length
          (normalizeWhitespace
            (jsSubstring ['z','a','b','c','y'] (1 - (['p'] : Str).length) 1)).length
              : Nat) : ℚ)
        + (k2 : ℚ) / ((min (normalizeWhitespace ['a','b','c','x']).length
          (normalizeWhitespace (jsSubstring ['z','a','b','c','y'] 1
            (min (['z','a','b','c','y'] : Str).length
              (1 + (['a','b','c','x'] : Str).length)))).length : Nat) : ℚ) :=
  C6_overlap_scores ⟨['q'], ['p'], ['a','b','c','x'], none, none⟩
    ['z','a','b','c','y'] 1 1 rfl (by decide) (by decide) (by decide)
    (by decide) (by decide) (by decide)

/-! ## Invariants of the fuzzy scan loop -/

theorem fuzzyScan_sound (needle hay : Str) (maxD : ℤ) (Q : Nat × Nat → Prop) :
    ∀ (ps : List (Nat × Nat)) (best : Option FuzzyMatchResult)
      (r : FuzzyMatchResult),
      fuzzyScan needle hay maxD ps best = some r →
      (∀ p ∈ ps, Q p) →
      (∀ b, best = some b →
        levenshteinDistance needle ((hay.drop b.index).take b.length) =
          b.distance ∧ (b.distance : ℤ) ≤ maxD ∧ Q (b.length, b.index)) →
      levenshteinDistance needle ((hay.drop r.index).take r.length) =
        r.distance ∧ (r.distance : ℤ) ≤ maxD ∧ Q (r.length, r.index) := by
  intro ps
  induction ps with
  | nil =>
    intro best r h hQ hInv
    exact hInv r h
  | cons p rest ih =>
    obtain ⟨winLen, i⟩ := p
    intro best r h hQ hInv
    have hQr : ∀ q ∈ rest, Q q := fun q hq => hQ q (List.mem_cons_of_mem _ hq)
    have hQ0 : Q (winLen, i) := hQ _ (List.mem_cons_self _ _)
    cases best with
    | none =>
      rw [fuzzyScan] at h
      by_cases hgt : (levenshteinDistance needle ((hay.drop i).take winLen) : ℤ)
          > maxD
      · rw [if_pos hgt] at h
        exact ih none r h hQr hInv
      · rw [if_neg hgt] at h
        by_cases hz : levenshteinDistance needle ((hay.drop i).take winLen) = 0
        · rw [if_pos hz] at h
          obtain rfl : (⟨i, winLen,
              levenshteinDistance needle ((hay.drop i).take winLen)⟩ :
              FuzzyMatchResult) = r := Option.some_inj.mp h
          exact ⟨rfl, not_lt.mp hgt, hQ0⟩
        · rw [if_neg hz] at h
          refine ih _ r h hQr ?_
          intro b hb
          obtain rfl : (⟨i, winLen,
              levenshteinDistance needle ((hay.drop i).take winLen)⟩ :
              FuzzyMatchResult) = b := Option.some_inj.mp hb
          exact ⟨rfl, not_lt.mp hgt, hQ0⟩
    | some b =>
      rw [fuzzyScan] at h
      by_cases hgt : (levenshteinDistance needle ((hay.drop i).take winLen) : ℤ)
          > maxD
      · rw [if_pos hgt] at h
        exact ih (some b) r h hQr hInv
      · rw [if_neg hgt] at h
        by_cases hlt : levenshteinDistance needle ((hay.drop i).take winLen)
            < b.distance
        · rw [if_pos hlt] at h
          by_cases hz : levenshteinDistance needle ((hay.drop i).take winLen) = 0
          · rw [if_pos hz] at h
            obtain rfl : (⟨i, winLen,
                levenshteinDistance needle ((hay.drop i).take winLen)⟩ :
                FuzzyMatchResult) = r := Option.some_inj.mp h
            exact ⟨rfl, not_lt.mp hgt, hQ0⟩
          · rw [if_neg hz] at h
            refine ih _ r h hQr ?_
            intro b2 hb2
            obtain rfl : (⟨i, winLen,
                levenshteinDistance needle ((hay.drop i).take winLen)⟩ :
                FuzzyMatchResult) = b2 := Option.some_inj.mp hb2
            exact ⟨rfl, not_lt.mp hgt, hQ0⟩
        · rw [if_neg hlt] at h
          refine ih (some b) r h hQr ?_
          intro b2 hb2
          obtain rfl : b = b2 := Option.some_inj.mp hb2
          exact hInv b rfl

theorem fuzzyScan_le_best (needle hay : Str) (maxD : ℤ) :
    ∀ (ps : List (Nat × Nat)) (best : Option FuzzyMatchResult)
      (r b : FuzzyMatchResult),
      fuzzyScan needle hay maxD ps best = some r → best = some b →
      r.distance ≤ b.distance := by
  intro ps
  induction ps with
  | nil =>
    intro best r b h hb
    rw [hb] at h
    obtain rfl : b = r := Option.some_inj.mp h
    exact le_refl _
  | cons p rest ih =>
    obtain ⟨winLen, i⟩ := p
    intro best r b h hb
    subst hb
    rw [fuzzyScan] at h
    by_cases hgt : (levenshteinDistance needle ((hay.drop i).take winLen) : ℤ)
        > maxD
    · rw [if_pos hgt] at h
      exact ih _ r b h rfl
    · rw [if_neg hgt] at h
      by_cases hlt : levenshteinDistance needle ((hay.drop i).take winLen)
          < b.distance
      · rw [if_pos hlt] at h
        by_cases hz : levenshteinDistance needle ((hay.drop i).take winLen) = 0
        · rw [if_pos hz] at h
          obtain rfl : (⟨i, winLen,
              levenshteinDistance needle ((hay.drop i).take winLen)⟩ :
              FuzzyMatchResult) = r := Option.some_inj.mp h
          exact le_of_lt hlt
        · rw [if_neg hz] at h
          exact le_of_lt (lt_of_le_of_lt (ih _ r _ h rfl) hlt)
      · rw [if_neg hlt] at h
        exact ih _ r b h rfl

theorem fuzzyScan_minimal (needle hay : Str) (maxD : ℤ) :
    ∀ (ps : List (Nat × Nat)) (best : Option FuzzyMatchResult)
      (r : FuzzyMatchResult),
      fuzzyScan needle hay maxD ps best = some r →
      ∀ p ∈ ps,
        ((levenshteinDistance needle ((hay.drop p.2).take p.1) : ℤ) ≤ maxD) →
        r.distance ≤ levenshteinDistance needle ((hay.drop p.2).take p.1) := by
  intro ps
  induction ps with
  | nil =>
    intro best r h p hp
    simp at hp
  | cons p0 rest ih =>
    obtain ⟨winLen, i⟩ := p0
    intro best r h p hp hbud
    cases best with
    | none =>
      rw [fuzzyScan] at h
      by_cases hgt : (levenshteinDistance needle ((hay.drop i).take winLen) : ℤ)
          > maxD
      · rw [if_pos hgt] at h
        rcases List.mem_cons.mp hp with rfl | hmem
        · exact absurd hbud (not_le.mpr hgt)
        · exact ih none r h p hmem hbud
      · rw [if_neg hgt] at h
        by_cases hz : levenshteinDistance needle ((hay.drop i).take winLen) = 0
        · rw [if_pos hz] at h
          obtain rfl : (⟨i, winLen,
              levenshteinDistance needle ((hay.drop i).take winLen)⟩ :
              FuzzyMatchResult) = r := Option.some_inj.mp h
          simp [hz]
        · rw [if_neg hz] at h
          rcases List.mem_cons.mp hp with rfl | hmem
          · exact fuzzyScan_le_best needle hay maxD rest _ r _ h rfl
          · exact ih _ r h p hmem hbud
    | some b =>
      rw [fuzzyScan] at h
      by_cases hgt : (levenshteinDistance needle ((hay.drop i).take winLen) : ℤ)
          > maxD
      · rw [if_pos hgt] at h
        rcases List.mem_cons.mp hp with rfl | hmem
        · exact absurd hbud (not_le.mpr hgt)
        · exact ih (some b) r h p hmem hbud
      · rw [if_neg hgt] at h
        by_cases hlt : levenshteinDistance needle ((hay.drop i).take winLen)
            < b.distance
        · rw [if_pos hlt] at h
          by_cases hz : levenshteinDistance needle ((hay.drop i).take winLen) = 0
          · rw [if_pos hz] at h
            obtain rfl : (⟨i, winLen,
                levenshteinDistance needle ((hay.drop i).take winLen)⟩ :
                FuzzyMatchResult) = r := Option.some_inj.mp h
            simp [hz]
          · rw [if_neg hz] at h
            rcases List.mem_cons.mp hp with rfl | hmem
            · exact fuzzyScan_le_best needle hay maxD rest _ r _ h rfl
            · exact ih _ r h p hmem hbud
        · rw [if_neg hlt] at h
          rcases List.mem_cons.mp hp with rfl | hmem
          · exact le_trans (fuzzyScan_le_best needle hay maxD rest _ r b h rfl)
              (not_lt.mp hlt)
          · exact ih _ r h p hmem hbud

theorem fuzzyScan_first (needle hay : Str) (maxD : ℤ) :
    ∀ (ps : List (Nat × Nat)) (best : Option FuzzyMatchResult)
      (r : FuzzyMatchResult),
      fuzzyScan needle hay maxD ps best = some r →
      best = some r ∨
      ∃ k, ps[k]? = some (r.length, r.index) ∧
        levenshteinDistance needle ((hay.drop r.index).take r.length) =
          r.distance ∧
        (∀ b, best = some b → r.distance < b.distance) ∧
        ∀ j : Nat, j < k → ∀ q : Nat × Nat, ps[j]? = some q →
          ((levenshteinDistance needle ((hay.drop q.2).take q.1) : ℤ) ≤ maxD) →
          r.distance < levenshteinDistance needle ((hay.drop q.2).take q.1) := by
  intro ps
  induction ps with
  | nil =>
    intro best r h
    exact Or.inl h
  | cons p0 rest ih =>
    obtain ⟨winLen, i⟩ := p0
    intro best r h
    cases best with
    | none =>
      rw [fuzzyScan] at h
      by_cases hgt : (levenshteinDistance needle ((hay.drop i).take winLen) : ℤ)
          > maxD
      · rw [if_pos hgt] at h
        rcases ih none r h with h1 | ⟨k, h1, h2, h3, h4⟩
        · exact Or.inl h1
        · refine Or.inr ⟨k + 1, by simpa using h1, h2, by simp, ?_⟩
          intro j hj q hq hqb
          cases j with
          | zero =>
            obtain rfl : (winLen, i) = q := by simpa using hq
            exact absurd hqb (not_le.mpr hgt)
          | succ j =>
            exact h4 j (by omega) q (by simpa using hq) hqb
      · rw [if_neg hgt] at h
        by_cases hz : levenshteinDistance needle ((hay.drop i).take winLen) = 0
        · rw [if_pos hz] at h
          obtain rfl : (⟨i, winLen,
              levenshteinDistance needle ((hay.drop i).take winLen)⟩ :
              FuzzyMatchResult) = r := Option.some_inj.mp h
          refine Or.inr ⟨0, by simp, rfl, by simp, by omega⟩
        · rw [if_neg hz] at h
          rcases ih _ r h with h1 | ⟨k, h1, h2, h3, h4⟩
          · obtain rfl : (⟨i, winLen,
                levenshteinDistance needle ((hay.drop i).take winLen)⟩ :
                FuzzyMatchResult) = r := Option.some_inj.mp h1
            refine Or.inr ⟨0, by simp, rfl, by simp, by omega⟩
          · refine Or.inr ⟨k + 1, by simpa using h1, h2, by simp, ?_⟩
            intro j hj q hq hqb
            cases j with
            | zero =>
              obtain rfl : (winLen, i) = q := by simpa using hq
              exact h3 _ rfl
            | succ j =>
              exact h4 j (by omega) q (by simpa using hq) hqb
    | some b =>
      rw [fuzzyScan] at h
      by_cases hgt : (levenshteinDistance needle ((hay.drop i).take winLen) : ℤ)
          > maxD
      · rw [if_pos hgt] at h
        rcases ih (some b) r h with h1 | ⟨k, h1, h2, h3, h4⟩
        · exact Or.inl h1
        · refine Or.inr ⟨k + 1, by simpa using h1, h2, h3, ?_⟩
          intro j hj q hq hqb
          cases j with
          | zero =>
            obtain rfl : (winLen, i) = q := by simpa using hq
            exact absurd hqb (not_le.mpr hgt)
          | succ j =>
            exact h4 j (by omega) q (by simpa using hq) hqb
      · rw [if_neg hgt] at h
        by_cases hlt : levenshteinDistance needle ((hay.drop i).take winLen)
            < b.distance
        · rw [if_pos hlt] at h
          by_cases hz : levenshteinDistance needle ((hay.drop i).take winLen) = 0
          · rw [if_pos hz] at h
            obtain rfl : (⟨i, winLen,
                levenshteinDistance needle ((hay.drop i).take winLen)⟩ :
                FuzzyMatchResult) = r := Option.some_inj.mp h
            refine Or.inr ⟨0, by simp, rfl, ?_, by omega⟩
            intro b2 hb2
            obtain rfl : b = b2 := Option.some_inj.mp hb2
            exact hlt
          · rw [if_neg hz] at h
            rcases ih _ r h with h1 | ⟨k, h1, h2, h3, h4⟩
            · obtain rfl : (⟨i, winLen,
                  levenshteinDistance needle ((hay.drop i).take winLen)⟩ :
                  FuzzyMatchResult) = r := Option.some_inj.mp h1
              refine Or.inr ⟨0, by simp, rfl, ?_, by omega⟩
              intro b2 hb2
              obtain rfl : b = b2 := Option.some_inj.mp hb2
              exact hlt
            · refine Or.inr ⟨k + 1, by simpa using h1, h2, ?_, ?_⟩
              · intro b2 hb2
                obtain rfl : b = b2 := Option.some_inj.mp hb2
                exact lt_trans (h3 _ rfl) hlt
              · intro j hj q hq hqb
                cases j with
                | zero =>
                  obtain rfl : (winLen, i) = q := by simpa using hq
                  exact h3 _ rfl
                | succ j =>
                  exact h4 j (by omega) q (by simpa using hq) hqb
        · rw [if_neg hlt] at h
          rcases ih _ r h with h1 | ⟨k, h1, h2, h3, h4⟩
          · exact Or.inl h1
          · refine Or.inr ⟨k + 1, by simpa using h1, h2, h3, ?_⟩
            intro j hj q hq hqb
            cases j with
            | zero =>
              obtain rfl : (winLen, i) = q := by simpa using hq
              exact lt_of_lt_of_le (h3 b rfl) (not_lt.mp hlt)
            | succ j =>
              exact h4 j (by omega) q (by simpa using hq) hqb

theorem fuzzyScan_zero (needle hay : Str) (maxD : ℤ) (h0 : 0 ≤ maxD) :
    ∀ (ps : List (Nat × Nat)) (best : Option FuzzyMatchResult),
      (∀ b, best = some b → 0 < b.distance) →
      (∃ p ∈ ps, levenshteinDistance needle ((hay.drop p.2).take p.1) = 0) →
      ∃ r, fuzzyScan needle hay maxD ps best = some r ∧ r.distance = 0 := by
  intro ps
  induction ps with
  | nil =>
    intro best hb hex
    simp at hex
  | cons p0 rest ih =>
    obtain ⟨winLen, i⟩ := p0
    intro best hb hex
    by_cases hz : levenshteinDistance needle ((hay.drop i).take winLen) = 0
    · have hgt : ¬ ((levenshteinDistance needle ((hay.drop i).take winLen) : ℤ)
          > maxD) := by
        rw [hz]
        omega
      cases best with
      | none =>
        refine ⟨⟨i, winLen,
          levenshteinDistance needle ((hay.drop i).take winLen)⟩, ?_, hz⟩
        rw [fuzzyScan, if_neg hgt, if_pos hz]
      | some b =>
        have hlt : levenshteinDistance needle ((hay.drop i).take winLen)
            < b.distance := by
          rw [hz]
          exact hb b rfl
        refine ⟨⟨i, winLen,
          levenshteinDistance needle ((hay.drop i).take winLen)⟩, ?_, hz⟩
        rw [fuzzyScan, if_neg hgt, if_pos hlt, if_pos hz]
    · have hex2 : ∃ p ∈ rest,
          levenshteinDistance needle ((hay.drop p.2).take p.1) = 0 := by
        rcases hex with ⟨p, hp, hpz⟩
        rcases List.mem_cons.mp hp with rfl | hmem
        · exact absurd hpz hz
        · exact ⟨p, hmem, hpz⟩
      cases best with
      | none =>
        by_cases hgt : (levenshteinDistance needle
            ((hay.drop i).take winLen) : ℤ) > maxD
        · obtain ⟨r, hr, hrz⟩ := ih none hb hex2
          refine ⟨r, ?_, hrz⟩
          rw [fuzzyScan, if_pos hgt]
          exact hr
        · obtain ⟨r, hr, hrz⟩ := ih (some ⟨i, winLen,
            levenshteinDistance needle ((hay.drop i).take winLen)⟩)
            (by
              intro b2 hb2
              obtain rfl : (⟨i, winLen, levenshteinDistance needle
                  ((hay.drop i).take winLen)⟩ : FuzzyMatchResult) = b2 :=
                Option.some_inj.mp hb2
              exact Nat.pos_of_ne_zero hz) hex2
          refine ⟨r, ?_, hrz⟩
          rw [fuzzyScan, if_neg hgt, if_neg hz]
          exact hr
      | some b =>
        by_cases hgt : (levenshteinDistance needle
            ((hay.drop i).take winLen) : ℤ) > maxD
        · obtain ⟨r, hr, hrz⟩ := ih (some b) hb hex2
          refine ⟨r, ?_, hrz⟩
          rw [fuzzyScan, if_pos hgt]
          exact hr
        · by_cases hlt : levenshteinDistance needle ((hay.drop i).take winLen)
              < b.distance
          · obtain ⟨r, hr, hrz⟩ := ih (some ⟨i, winLen,
              levenshteinDistance needle ((hay.drop i).take winLen)⟩)
              (by
                intro b2 hb2
                obtain rfl : (⟨i, winLen, levenshteinDistance needle
                    ((hay.drop i).take winLen)⟩ : FuzzyMatchResult) = b2 :=
                  Option.some_inj.mp hb2
                exact Nat.pos_of_ne_zero hz) hex2
            refine ⟨r, ?_, hrz⟩
            rw [fuzzyScan, if_neg hgt, if_pos hlt, if_neg hz]
            exact hr
          · obtain ⟨r, hr, hrz⟩ := ih (some b) hb hex2
            refine ⟨r, ?_, hrz⟩
            rw [fuzzyScan, if_neg hgt, if_neg hlt]
            exact hr

/-! ## Properties of the whitespace normalizer -/

theorem collapse_length_le : ∀ (t : Str) (b : Bool),
    (collapse t b).length ≤ t.length := by
  intro t
  induction t with
  | nil => intro b; simp [collapse]
  | cons c rest ih =>
    intro b
    by_cases hc : isWS c = true
    · cases b with
      | true =>
        simp only [collapse, hc, if_true]
        exact le_trans (ih true) (by simp)
      | false =>
        simp only [collapse, hc, if_true]
        simpa using ih true
    · simp only [collapse, hc]
      simpa using ih false

theorem jsTrim_prefix_dropWhile (l : Str) :
    jsTrim l <+: l.dropWhile isWS := by
  rw [jsTrim]
  have h1 : ((l.dropWhile isWS).reverse.dropWhile isWS) <:+
      (l.dropWhile isWS).reverse := List.dropWhile_suffix isWS
  have h2 := List.reverse_prefix.mpr h1
  rwa [List.reverse_reverse] at h2

theorem jsTrim_part (l : Str) : jsTrim l <:+: l :=
  (jsTrim_prefix_dropWhile l).isInfix.trans
    (List.dropWhile_suffix isWS).isInfix

theorem jsTrim_length_le (l : Str) : (jsTrim l).length ≤ l.length :=
  (jsTrim_part l).sublist.length_le

theorem normalizeWhitespace_length_le (t : Str) :
    (normalizeWhitespace t).length ≤ t.length :=
  le_trans (jsTrim_length_le (collapse t false)) (collapse_length_le t false)

theorem dropWhile_head_not_ws : ∀ (l : Str) (c : Char),
    (l.dropWhile isWS).head? = some c → isWS c = false := by
  intro l
  induction l with
  | nil => intro c h; simp at h
  | cons a r ih =>
    intro c h
    by_cases ha : isWS a = true
    · rw [List.dropWhile_cons, if_pos ha] at h
      exact ih c h
    · rw [List.dropWhile_cons, if_neg ha] at h
      obtain rfl : a = c := by simpa using h
      simpa using ha

theorem jsTrim_head_not_ws (l : Str) (c : Char)
    (h : (jsTrim l).head? = some c) : isWS c = false := by
  obtain ⟨t, ht⟩ := jsTrim_prefix_dropWhile l
  cases hj : jsTrim l with
  | nil => rw [hj] at h; simp at h
  | cons a r =>
    rw [hj] at h
    have hac : a = c := by simpa using h
    rw [hj] at ht
    have hhead : (l.dropWhile isWS).head? = some a := by
      rw [← ht]
      rfl
    rw [← hac]
    exact dropWhile_head_not_ws l a hhead

theorem jsTrim_getLast_not_ws (l : Str) (c : Char)
    (h : (jsTrim l).getLast? = some c) : isWS c = false := by
  rw [jsTrim, List.getLast?_reverse] at h
  exact dropWhile_head_not_ws (l.dropWhile isWS).reverse c h

theorem collapse_true_head (t : Str)
    (h : ∀ c, t.head? = some c → isWS c = false) :
    collapse t true = collapse t false := by
  cases t with
  | nil => rfl
  | cons c r =>
    have hc := h c rfl
    simp [collapse, hc]

theorem collapse_ws_mem : ∀ (t : Str) (b : Bool) (c : Char),
    c ∈ collapse t b → isWS c = true → c = ' ' := by
  intro t
  induction t with
  | nil => intro b c hc; simp [collapse] at hc
  | cons a r ih =>
    intro b c hc hws
    by_cases ha : isWS a = true
    · cases b with
      | true =>
        rw [collapse, if_pos ha, if_pos rfl] at hc
        exact ih true c hc hws
      | false =>
        rw [collapse, if_pos ha] at hc
        rw [if_neg (by simp : ¬ (false = true))] at hc
        rcases List.mem_cons.mp hc with rfl | hmem
        · rfl
        · exact ih true c hmem hws
    · rw [collapse, if_neg ha] at hc
      rcases List.mem_cons.mp hc with rfl | hmem
      · exact absurd hws (by simpa using ha)
      · exact ih false c hmem hws

theorem collapse_head_true_not_ws : ∀ (t : Str) (c : Char),
    (collapse t true).head? = some c → isWS c = false := by
  intro t
  induction t with
  | nil => intro c h; simp [collapse] at h
  | cons a r ih =>
    intro c h
    by_cases ha : isWS a = true
    · rw [collapse, if_pos ha, if_pos rfl] at h
      exact ih c h
    · rw [collapse, if_neg ha] at h
      obtain rfl : a = c := by simpa using h
      simpa using ha

theorem collapse_chain : ∀ (t : Str) (b : Bool),
    List.Chain' (fun x y => isWS x = false ∨ isWS y = false)
      (collapse t b) := by
  intro t
  induction t with
  | nil => intro b; simp [collapse]
  | cons a r ih =>
    intro b
    by_cases ha : isWS a = true
    · cases b with
      | true =>
        rw [collapse, if_pos ha, if_pos rfl]
        exact ih true
      | false =>
        rw [collapse, if_pos ha]
        rw [if_neg (by simp : ¬ (false = true))]
        rw [List.chain'_cons']
        refine ⟨?_, ih true⟩
        intro y hy
        exact Or.inr (collapse_head_true_not_ws r y hy)
    · rw [collapse, if_neg ha]
      rw [List.chain'_cons']
      refine ⟨?_, ih false⟩
      intro y hy
      exact Or.inl (by simpa using ha)

theorem collapse_eq_self : ∀ (t : Str),
    (∀ c ∈ t, isWS c = true → c = ' ') →
    List.Chain' (fun x y => isWS x = false ∨ isWS y = false) t →
    collapse t false = t := by
  intro t
  induction t with
  | nil => intro _ _; rfl
  | cons a r ih =>
    intro hmem hch
    obtain ⟨hhd, htl⟩ := List.chain'_cons'.mp hch
    by_cases ha : isWS a = true
    · rw [collapse, if_pos ha]
      rw [if_neg (by simp : ¬ (false = true))]
      obtain rfl : a = ' ' := hmem a (List.mem_cons_self _ _) ha
      have hr : collapse r true = collapse r false := by
        refine collapse_true_head r ?_
        intro c hc
        rcases hhd c hc with h1 | h1
        · exact absurd ha (by simp [h1])
        · exact h1
      rw [hr, ih (fun c hc hw => hmem c (List.mem_cons_of_mem _ hc) hw) htl]
    · rw [collapse, if_neg ha]
      rw [ih (fun c hc hw => hmem c (List.mem_cons_of_mem _ hc) hw) htl]

theorem jsTrim_eq_self (l : Str)
    (hh : ∀ c, l.head? = some c → isWS c = false)
    (hl : ∀ c, l.getLast? = some c → isWS c = false) :
    jsTrim l = l := by
  have h1 : l.dropWhile isWS = l := by
    cases l with
    | nil => rfl
    | cons a r =>
      rw [List.dropWhile_cons, if_neg (by simp [hh a rfl])]
  rw [jsTrim, h1]
  have h2 : l.reverse.dropWhile isWS = l.reverse := by
    cases hr : l.reverse with
    | nil => rfl
    | cons a r =>
      have hla : l.getLast? = some a := by
        rw [← List.head?_reverse, hr]
        rfl
      rw [List.dropWhile_cons, if_neg (by simp [hl a hla])]
  rw [h2, List.reverse_reverse]

theorem normalizeWhitespace_idem (t : Str) :
    normalizeWhitespace (normalizeWhitespace t) = normalizeWhitespace t := by
  have hinf : normalizeWhitespace t <:+: collapse t false :=
    jsTrim_part (collapse t false)
  have hmem : ∀ c ∈ normalizeWhitespace t, isWS c = true → c = ' ' :=
    fun c hc hw => collapse_ws_mem t false c (hinf.subset hc) hw
  have hch : List.Chain' (fun x y => isWS x = false ∨ isWS y = false)
      (normalizeWhitespace t) :=
    List.Chain'.infix (collapse_chain t false) hinf
  rw [normalizeWhitespace, collapse_eq_self (normalizeWhitespace t) hmem hch]
  exact jsTrim_eq_self (normalizeWhitespace t)
    (jsTrim_head_not_ws (collapse t false))
    (jsTrim_getLast_not_ws (collapse t false))

/-! ## Stage tags and pipeline decomposition -/

theorem resolveStage1_stage (target : CommentTarget) (docText : Str)
    (x : ResolvedAnchor) (h : resolveStage1 target docText = .ok (some x)) :
    x.stage = 1 := by
  cases hlh : target.lineHint with
  | none =>
    simp only [resolveStage1, hlh] at h
    exact absurd h (by simp)
  | some hint =>
    simp only [resolveStage1, hlh] at h
    cases hsum : sumLinesBefore (docText.splitOn '\n') (hint - 20) with
    | error e =>
      simp only [hsum] at h
      exact absurd h (by simp)
    | ok regionStart =>
      simp only [hsum] at h
      cases hidx : jsIndexOf (stage1Window docText hint regionStart)
          target.exact 0 with
      | none =>
        simp only [hidx] at h
        exact absurd h (by simp)
      | some idx =>
        simp only [hidx] at h
        have hx := Option.some_inj.mp (Except.ok.inj h)
        rw [← hx]

theorem resolveStage2_stage (target : CommentTarget) (docText : Str)
    (x : ResolvedAnchor) (h : resolveStage2 target docText = some x) :
    x.stage = 2 := by
  simp only [resolveStage2] at h
  cases hb : (sortByScoreDesc (collectCandidates target docText 0)).head? with
  | none =>
    simp only [hb] at h
    exact absurd h (by simp)
  | some best =>
    simp only [hb] at h
    have hx := Option.some_inj.mp h
    rw [← hx]

theorem resolveStage3_decomp (target : CommentTarget) (docText : Str)
    (threshold : ℚ) (x : ResolvedAnchor)
    (h : resolveStage3 target docText threshold = some x) :
    ∃ result, fuzzyMatchInOriginal target.exact docText threshold =
        some result ∧
      x.fromPos = result.index ∧ x.toPos = result.index + result.length ∧
      x.line = computeLineNumber docText result.index ∧ x.stage = 3 := by
  simp only [resolveStage3] at h
  cases hf : fuzzyMatchInOriginal target.exact docText threshold with
  | none =>
    simp only [hf] at h
    exact absurd h (by simp)
  | some result =>
    simp only [hf] at h
    by_cases hscore : scoreContext target docText result.index
        (result.index + result.length) < 0
    · rw [if_pos hscore] at h
      exact absurd h (by simp)
    · rw [if_neg hscore] at h
      have hx := Option.some_inj.mp h
      rw [← hx]
      exact ⟨result, rfl, rfl, rfl, rfl, rfl⟩

theorem fuzzyMatchInOriginal_decomp (needle orig : Str) (threshold : ℚ)
    (r : FuzzyMatchResult)
    (h : fuzzyMatchInOriginal needle orig threshold = some r) :
    ∃ q, fuzzyMatch needle (normalizeWhitespace orig) threshold = some q ∧
      r.distance = q.distance := by
  simp only [fuzzyMatchInOriginal] at h
  cases hq : fuzzyMatch needle (normalizeWhitespace orig) threshold with
  | none =>
    simp only [hq] at h
    exact absurd h (by simp)
  | some q =>
    simp only [hq] at h
    refine ⟨q, rfl, ?_⟩
    cases hms : (walk q.index (q.index + q.length)
        (orig.drop (orig.length - (orig.dropWhile isWS).length))
        (orig.length - (orig.dropWhile isWS).length)
        ⟨0, false, none, none⟩).2.mStart with
    | none =>
      simp only [hms] at h
      exact absurd h (by simp)
    | some ms =>
      simp only [hms] at h
      have hx := Option.some_inj.mp h
      rw [← hx]

theorem fuzzyMatch_decomp (needle hay : Str) (threshold : ℚ)
    (q : FuzzyMatchResult) (h : fuzzyMatch needle hay threshold = some q) :
    (normalizeWhitespace needle).length ≠ 0 ∧
    fuzzyScan (normalizeWhitespace needle) (normalizeWhitespace hay)
      (Int.floor (((normalizeWhitespace needle).length : ℚ) * threshold))
      (scanPairs (normalizeWhitespace needle).length
        (normalizeWhitespace hay).length
        (Int.floor (((normalizeWhitespace needle).length : ℚ) * threshold)))
      none = some q := by
  rw [fuzzyMatch, fuzzyMatchCore] at h
  by_cases hz : (normalizeWhitespace needle).length = 0
  · rw [if_pos hz] at h
    exact absurd h (by simp)
  · rw [if_neg hz] at h
    exact ⟨hz, h⟩

/-- C3: a stage-3 (fuzzy) result respects the edit-distance budget: the
distance between the normalized target and the matched normalized window
is at most `floor(n * t)` for a target of length `n` and threshold
`t ∈ [0, 1]` (the code's budget uses the normalized target length, which
is at most `n`). -/
theorem C3_stage3_distance_budget (target : CommentTarget) (docText : Str)
    (threshold : ℚ) (h0 : 0 ≤ threshold) (h1 : threshold ≤ 1)
    (a : ResolvedAnchor)
    (hres : resolveAnchor target docText threshold = .ok (some a))
    (hstage : a.stage = 3) :
    ∃ r, fuzzyMatch target.exact (normalizeWhitespace docText) threshold =
        some r ∧
      levenshteinDistance (normalizeWhitespace target.exact)
        (((normalizeWhitespace docText).drop r.index).take r.length) =
        r.distance ∧
      (r.distance : ℤ) ≤ Int.floor ((target.exact.length : ℚ) * threshold) := by
  cases hs1 : resolveStage1 target docText with
  | error e =>
    simp only [resolveAnchor, hs1] at hres
    exact absurd hres (by simp)
  | ok o1 =>
    cases o1 with
    | some a1 =>
      simp only [resolveAnchor, hs1] at hres
      obtain rfl : a1 = a := Option.some_inj.mp (Except.ok.inj hres)
      rw [resolveStage1_stage target docText a1 hs1] at hstage
      simp at hstage
    | none =>
      cases hs2 : resolveStage2 target docText with
      | some a2 =>
        simp only [resolveAnchor, hs1, hs2] at hres
        obtain rfl : a2 = a := Option.some_inj.mp (Except.ok.inj hres)
        rw [resolveStage2_stage target docText a2 hs2] at hstage
        simp at hstage
      | none =>
        simp only [resolveAnchor, hs1, hs2] at hres
        have h3 : resolveStage3 target docText threshold = some a :=
          Except.ok.inj hres
        obtain ⟨result, hfio, _⟩ := resolveStage3_decomp target docText
          threshold a h3
        obtain ⟨q, hfm, _⟩ := fuzzyMatchInOriginal_decomp target.exact
          docText threshold result hfio
        obtain ⟨hz, hscan⟩ := fuzzyMatch_decomp target.exact
          (normalizeWhitespace docText) threshold q hfm
        rw [normalizeWhitespace_idem docText] at hscan
        have hsound := fuzzyScan_sound (normalizeWhitespace target.exact)
          (normalizeWhitespace docText)
          (Int.floor (((normalizeWhitespace target.exact).length : ℚ) *
            threshold)) (fun _ => True) _ none q hscan
          (fun _ _ => trivial) (by intro b hb; exact absurd hb (by simp))
        refine ⟨q, hfm, hsound.1, le_trans hsound.2.1 ?_⟩
        apply Int.floor_le_floor
        apply mul_le_mul_of_nonneg_right _ h0
        exact_mod_cast normalizeWhitespace_length_le target.exact

/-- Witness for C3: target `"ab"` on document `"ax"` at threshold 1
resolves at stage 3; the instantiated budget facts follow from the
theorem. -/
theorem C3_stage3_distance_budget_witness :
    resolveAnchor ⟨['a', 'b'], [], [], none, none⟩ ['a', 'x'] 1 =
      .ok (some ⟨0, 1, 0, 3⟩) ∧
    ∃ r, fuzzyMatch (⟨['a', 'b'], [], [], none, none⟩ :
        CommentTarget).exact (normalizeWhitespace ['a', 'x']) 1 = some r ∧
      levenshteinDistance
        (normalizeWhitespace (⟨['a', 'b'], [], [], none, none⟩ :
          CommentTarget).exact)
        (((normalizeWhitespace ['a', 'x']).drop r.index).take r.length) =
        r.distance ∧
      (r.distance : ℤ) ≤ Int.floor
        (((⟨['a', 'b'], [], [], none, none⟩ :
          CommentTarget).exact.length : ℚ) * 1) := by
  have hcc : collectCandidates ⟨['a', 'b'], [], [], none, none⟩ ['a', 'x'] 0
      = [] := by
    rw [collectCandidates, dif_pos (by decide)]
    split
    · rfl
    · rename_i idx heq
      rw [show jsIndexOf ['a', 'x'] (⟨['a', 'b'], [], [], none, none⟩ :
          CommentTarget).exact 0 = none from by decide] at heq
      exact absurd heq (by simp)
  have hfm : fuzzyMatch ['a', 'b'] (normalizeWhitespace ['a', 'x']) 1 =
      some ⟨0, 1, 1⟩ := by
    rw [fuzzyMatch]
    rw [show (normalizeWhitespace ['a', 'b']).length = 2 from rfl]
    rw [show Int.floor (((2 : ℕ) : ℚ) * 1) = 2 by norm_num]
    decide
  have hscore : scoreContext ⟨['a', 'b'], [], [], none, none⟩ ['a', 'x'] 0 1
      = 0 := by
    rw [show scoreContext ⟨['a', 'b'], [], [], none, none⟩ ['a', 'x'] 0 1 =
      (0 : ℚ) + 0 + 0 from rfl]
    norm_num
  have hs3 : resolveStage3 ⟨['a', 'b'], [], [], none, none⟩ ['a', 'x'] 1 =
      some ⟨0, 1, 0, 3⟩ := by
    have hfio : fuzzyMatchInOriginal ['a', 'b'] ['a', 'x'] 1 =
        some ⟨0, 1, 1⟩ := by
      rw [fuzzyMatchInOriginal]
      rw [show normalizeWhitespace ['a', 'x'] = ['a', 'x'] from rfl] at hfm ⊢
      rw [hfm]
      rfl
    simp only [resolveStage3, hfio]
    norm_num [hscore]
    rfl
  have hres : resolveAnchor ⟨['a', 'b'], [], [], none, none⟩ ['a', 'x'] 1 =
      .ok (some ⟨0, 1, 0, 3⟩) := by
    simp only [resolveAnchor, resolveStage1]
    simp only [resolveStage2, hcc]
    rw [show sortByScoreDesc [] = [] from rfl]
    simp only [List.head?_nil, hs3]
  exact ⟨hres,
    C3_stage3_distance_budget ⟨['a', 'b'], [], [], none, none⟩ ['a', 'x'] 1
      (by norm_num) (by norm_num) ⟨0, 1, 0, 3⟩ hres rfl⟩

/-- Helper: the concrete fuzzy match used by the C5 artifacts. -/
theorem fuzzyMatch_ab_xb :
    fuzzyMatch ['a', 'b'] ['x', 'b'] (1/2) = some ⟨1, 1, 1⟩ := by
  rw [fuzzyMatch]
  rw [show (normalizeWhitespace ['a', 'b']).length = 2 from rfl]
  rw [show Int.floor (((2 : ℕ) : ℚ) * (1/2)) = 1 by norm_num]
  decide

/-- C5 counterexample: on needle `"ab"`, haystack `"xb"`, threshold 1/2
(budget 1), the two in-budget windows `(length 2, start 0)` and
`(length 1, start 1)` tie at the minimal distance 1; in the claim's scan
order — earliest start first, then shortest length — the window
`(length 2, start 0)` comes first, but the code returns
`(length 1, start 1)`: windows are actually enumerated shortest length
first. -/
theorem C5_counterexample_scan_order :
    fuzzyMatch ['a', 'b'] ['x', 'b'] (1/2) = some ⟨1, 1, 1⟩ ∧
    specScanPairsByStart 2 2 1 = [(1, 0), (2, 0), (1, 1)] ∧
    levenshteinDistance ['a', 'b'] (((['x', 'b'] : Str).drop 0).take 2) = 1 ∧
    levenshteinDistance ['a', 'b'] (((['x', 'b'] : Str).drop 1).take 1) = 1 ∧
    levenshteinDistance ['a', 'b'] (((['x', 'b'] : Str).drop 0).take 1) = 2 ∧
    ¬ ((1 : Nat) = 0 ∧ (1 : Nat) = 2) :=
  ⟨fuzzyMatch_ab_xb, by decide, rfl, rfl, rfl, by decide⟩

/-- C5 (amended): the window returned by `fuzzyMatch` is the first window
in the code's scan order — shortest window length first, then earliest
start position — attaining the minimal in-budget edit distance: every
strictly earlier in-budget window has strictly larger distance, and no
in-budget window beats the returned distance. -/
theorem C5_tie_break (needle hay : Str) (threshold : ℚ)
    (r : FuzzyMatchResult) (h : fuzzyMatch needle hay threshold = some r) :
    ∃ (maxD : ℤ) (ps : List (Nat × Nat)) (k : Nat),
      maxD = Int.floor (((normalizeWhitespace needle).length : ℚ) *
        threshold) ∧
      ps = scanPairs (normalizeWhitespace needle).length
        (normalizeWhitespace hay).length maxD ∧
      ps[k]? = some (r.length, r.index) ∧
      levenshteinDistance (normalizeWhitespace needle)
        (((normalizeWhitespace hay).drop r.index).take r.length) =
        r.distance ∧
      (r.distance : ℤ) ≤ maxD ∧
      (∀ j : Nat, j < k → ∀ q : Nat × Nat, ps[j]? = some q →
        ((levenshteinDistance (normalizeWhitespace needle)
          (((normalizeWhitespace hay).drop q.2).take q.1) : ℤ) ≤ maxD) →
        r.distance < levenshteinDistance (normalizeWhitespace needle)
          (((normalizeWhitespace hay).drop q.2).take q.1)) ∧
      (∀ q ∈ ps, ((levenshteinDistance (normalizeWhitespace needle)
          (((normalizeWhitespace hay).drop q.2).take q.1) : ℤ) ≤ maxD) →
        r.distance ≤ levenshteinDistance (normalizeWhitespace needle)
          (((normalizeWhitespace hay).drop q.2).take q.1)) := by
  obtain ⟨hz, hscan⟩ := fuzzyMatch_decomp needle hay threshold r h
  rcases fuzzyScan_first (normalizeWhitespace needle)
    (normalizeWhitespace hay) _ _ none r hscan with h1 | ⟨k, h1, h2, _, h4⟩
  · exact absurd h1 (by simp)
  · have hsound := fuzzyScan_sound (normalizeWhitespace needle)
      (normalizeWhitespace hay) _ (fun _ => True) _ none r hscan
      (fun _ _ => trivial) (by intro b hb; exact absurd hb (by simp))
    have hmin := fuzzyScan_minimal (normalizeWhitespace needle)
      (normalizeWhitespace hay) _ _ none r hscan
    exact ⟨_, _, k, rfl, rfl, h1, h2, hsound.2.1, h4, hmin⟩

/-- Witness for C5 (amended) at the concrete tie input: needle `"ab"`,
haystack `"xb"`, threshold 1/2. -/
theorem C5_tie_break_witness :
    ∃ (maxD : ℤ) (ps : List (Nat × Nat)) (k : Nat),
      maxD = Int.floor (((normalizeWhitespace ['a', 'b']).length : ℚ) *
        (1/2)) ∧
      ps = scanPairs (normalizeWhitespace ['a', 'b']).length
        (normalizeWhitespace ['x', 'b']).length maxD ∧
      ps[k]? = some ((⟨1, 1, 1⟩ : FuzzyMatchResult).length,
        (⟨1, 1, 1⟩ : FuzzyMatchResult).index) ∧
      levenshteinDistance (normalizeWhitespace ['a', 'b'])
        (((normalizeWhitespace ['x', 'b']).drop
          (⟨1, 1, 1⟩ : FuzzyMatchResult).index).take
          (⟨1, 1, 1⟩ : FuzzyMatchResult).length) =
        (⟨1, 1, 1⟩ : FuzzyMatchResult).distance ∧
      ((⟨1, 1, 1⟩ : FuzzyMatchResult).distance : ℤ) ≤ maxD ∧
      (∀ j : Nat, j < k → ∀ q : Nat × Nat, ps[j]? = some q →
        ((levenshteinDistance (normalizeWhitespace ['a', 'b'])
          (((normalizeWhitespace ['x', 'b']).drop q.2).take q.1) : ℤ) ≤
            maxD) →
        (⟨1, 1, 1⟩ : FuzzyMatchResult).distance <
          levenshteinDistance (normalizeWhitespace ['a', 'b'])
            (((normalizeWhitespace ['x', 'b']).drop q.2).take q.1)) ∧
      (∀ q ∈ ps, ((levenshteinDistance (normalizeWhitespace ['a', 'b'])
          (((normalizeWhitespace ['x', 'b']).drop q.2).take q.1) : ℤ) ≤
            maxD) →
        (⟨1, 1, 1⟩ : FuzzyMatchResult).distance ≤
          levenshteinDistance (normalizeWhitespace ['a', 'b'])
            (((normalizeWhitespace ['x', 'b']).drop q.2).take q.1)) :=
  C5_tie_break ['a', 'b'] ['x', 'b'] (1/2) ⟨1, 1, 1⟩ fuzzyMatch_ab_xb


/-! ## Correctness of the Levenshtein dynamic program

The rolling-row DP `levenshteinDistance` computes the textbook edit
distance `levRec` (on reversed strings, matching the row orientation of
the loop); in particular distance zero forces equality. -/

theorem levRec_nil_right : ∀ (a : Str), levRec a [] = a.length
  | [] => by simp [levRec]
  | _ :: _ => by simp [levRec]

theorem levRec_self : ∀ (a : Str), levRec a a = 0
  | [] => by simp [levRec]
  | x :: xs => by
    have ih := levRec_self xs
    simp [levRec, ih]

theorem levRec_eq_zero : ∀ (a b : Str), levRec a b = 0 → a = b
  | [], [] => fun _ => rfl
  | [], y :: ys => by
    intro h
    simp [levRec] at h
  | x :: xs, [] => by
    intro h
    simp [levRec] at h
  | x :: xs, y :: ys => by
    intro h
    rw [levRec] at h
    rcases Nat.min_eq_zero_iff.mp h with h1 | h1
    · omega
    · rcases Nat.min_eq_zero_iff.mp h1 with h2 | h2
      · omega
      · have hxy : x = y := by
          by_cases hc : x = y
          · exact hc
          · rw [if_neg hc] at h2
            omega
        have hd : levRec xs ys = 0 := by
          rw [if_pos hxy] at h2
          omega
        rw [hxy, levRec_eq_zero xs ys hd]

theorem levRec_comm : ∀ (a b : Str), levRec a b = levRec b a
  | [], b => by rw [levRec_nil_right]; cases b <;> simp [levRec]
  | a :: as, [] => by rw [levRec_nil_right]; simp [levRec]
  | x :: xs, y :: ys => by
    have ih1 := levRec_comm xs (y :: ys)
    have ih2 := levRec_comm (x :: xs) ys
    have ih3 := levRec_comm xs ys
    rw [levRec, levRec, ih1, ih2, ih3]
    have hc : (if x = y then 0 else 1) = (if y = x then 0 else 1) := by
      by_cases hxy : x = y
      · rw [if_pos hxy, if_pos hxy.symm]
      · rw [if_neg hxy, if_neg (fun h => hxy h.symm)]
    rw [hc]
    omega
termination_by a b => a.length + b.length
decreasing_by all_goals simp_arith

theorem map_range_succ {A : Type} (f : Nat → A) (n : Nat) :
    (List.range (n + 1)).map f =
      f 0 :: (List.range n).map (fun i => f (i + 1)) := by
  rw [List.range_succ_eq_map, List.map_cons, List.map_map]
  rfl

theorem levRowAux_spec (bj : Char) : ∀ (a2 u B : Str),
    levRowAux bj a2
      ((List.range (a2.length + 1)).map
        (fun i => levRec ((u ++ a2.take i).reverse) B.reverse))
      (levRec u.reverse (bj :: B.reverse)) =
    (List.range a2.length).map
      (fun i => levRec ((u ++ a2.take (i + 1)).reverse) (bj :: B.reverse)) := by
  intro a2
  induction a2 with
  | nil => intro u B; rfl
  | cons c a3 ih =>
    intro u B
    have hrev : (u ++ [c]).reverse = c :: u.reverse := by simp
    have hval : min (levRec u.reverse (bj :: B.reverse) + 1)
        (min (levRec ((u ++ [c]).reverse) B.reverse + 1)
          (levRec u.reverse B.reverse + (if c = bj then 0 else 1))) =
        levRec ((u ++ [c]).reverse) (bj :: B.reverse) := by
      rw [hrev, levRec]
    have hcons : ∀ (t : Str), (u ++ [c]) ++ t = u ++ c :: t := by
      intro t
      simp
    simp only [List.length_cons, map_range_succ, List.take_succ_cons,
      List.take_zero, List.append_nil, levRowAux]
    rw [hval]
    have ih2 := ih (u ++ [c]) B
    simp only [List.length_cons, map_range_succ, List.take_succ_cons,
      List.take_zero, List.append_nil, hcons] at ih2
    rw [ih2]

theorem levLoop_spec : ∀ (bs a B : Str), 
    levLoop a bs (B.length + 1)
      ((List.range (a.length + 1)).map
        (fun i => levRec ((a.take i).reverse) B.reverse)) =
    (List.range (a.length + 1)).map
      (fun i => levRec ((a.take i).reverse) ((B ++ bs).reverse)) := by
  intro bs
  induction bs with
  | nil =>
    intro a B
    simp [levLoop]
  | cons bj bs2 ih =>
    intro a B
    rw [levLoop]
    have hrow := levRowAux_spec bj a [] B
    simp only [List.nil_append, List.reverse_nil] at hrow
    have hleft : levRec ([] : Str) (bj :: B.reverse) = B.length + 1 := by
      simp [levRec]
    rw [hleft] at hrow
    rw [hrow]
    have hhead : (B.length + 1) :: (List.range a.length).map
        (fun i => levRec ((a.take (i + 1)).reverse) (bj :: B.reverse)) =
        (List.range (a.length + 1)).map
          (fun i => levRec ((a.take i).reverse) ((B ++ [bj]).reverse)) := by
      rw [map_range_succ]
      have h0 : levRec ((a.take 0).reverse) ((B ++ [bj]).reverse) =
          B.length + 1 := by
        simp [levRec]
      rw [h0]
      have hbj : (B ++ [bj]).reverse = bj :: B.reverse := by simp
      rw [hbj]
    rw [hhead]
    have ih2 := ih a (B ++ [bj])
    rw [List.length_append] at ih2
    simp only [List.length_cons, List.length_nil, Nat.zero_add] at ih2
    rw [List.append_assoc] at ih2
    simp only [List.cons_append, List.nil_append] at ih2
    exact ih2

theorem levenshteinDistance_eq_levRec (a b : Str) :
    levenshteinDistance a b = levRec a.reverse b.reverse := by
  rw [levenshteinDistance]
  by_cases hab : a = b
  · rw [if_pos hab, hab, levRec_self]
  · rw [if_neg hab]
    by_cases ha : a.length = 0
    · rw [if_pos ha]
      obtain rfl : a = [] := List.length_eq_zero.mp ha
      simp [levRec]
    · rw [if_neg ha]
      by_cases hb : b.length = 0
      · rw [if_pos hb]
        obtain rfl : b = [] := List.length_eq_zero.mp hb
        rw [List.reverse_nil, levRec_nil_right, List.length_reverse]
      · rw [if_neg hb]
        have key : ∀ (x y : Str),
            (levLoop x y 1 (List.range (x.length + 1))).getD x.length 0 =
            levRec x.reverse y.reverse := by
          intro x y
          have hinit : List.range (x.length + 1) =
              (List.range (x.length + 1)).map
                (fun i => levRec ((x.take i).reverse) (([] : Str).reverse)) := by
            conv_lhs => rw [show List.range (x.length + 1) =
              (List.range (x.length + 1)).map id from (List.map_id _).symm]
            refine List.map_congr_left ?_
            intro i hi
            rw [List.mem_range] at hi
            simp only [id_eq, List.reverse_nil, levRec_nil_right,
              List.length_reverse, List.length_take]
            omega
          have hloop := levLoop_spec y x []
          simp only [List.length_nil, Nat.zero_add, List.nil_append] at hloop
          rw [hinit, hloop]
          have hget : ((List.range (x.length + 1)).map
              (fun i => levRec ((x.take i).reverse) y.reverse)).getD
              x.length 0 = levRec ((x.take x.length).reverse) y.reverse := by
            rw [List.getD_eq_getElem?_getD, List.getElem?_map]
            rw [List.getElem?_range (by omega)]
            rfl
          rw [hget, List.take_length]
        by_cases hlen : a.length > b.length
        · rw [if_pos hlen]
          rw [key b a]
          exact levRec_comm b.reverse a.reverse
        · rw [if_neg hlen]
          exact key a b

theorem levenshteinDistance_eq_zero (a b : Str)
    (h : levenshteinDistance a b = 0) : a = b := by
  rw [levenshteinDistance_eq_levRec] at h
  have := levRec_eq_zero a.reverse b.reverse h
  exact List.reverse_inj.mp this


/-! ## Invariants and simulation of the offset-mapping walk

`walk_bounds` gives the order and range facts about the recorded match
boundaries; `walk_run` simulates the walk against `collapse`, locating the
original positions whose processing emits the normalized characters
`tS` and `tE - 1` of the run. -/

theorem walk_stop (tS tE : Nat) : ∀ (l : Str) (oIdx : Nat) (s : WalkSt),
    ¬ (s.normIdx < tE) → walk tS tE l oIdx s = (oIdx, s) := by
  intro l oIdx s h
  cases l with
  | nil => rfl
  | cons c rest => rw [walk, if_neg h]

theorem stepW_cases (tS tE oIdx : Nat) (c : Char) (s : WalkSt)
    (hmE : s.mEnd = none) :
    ((stepW tS tE oIdx c s).mStart = s.mStart ∨
      (stepW tS tE oIdx c s).mStart = some oIdx) ∧
    ((stepW tS tE oIdx c s).mEnd = none ∨
      (∃ i, i ≤ 1 ∧ (stepW tS tE oIdx c s).mEnd = some (oIdx + i) ∧
        (stepW tS tE oIdx c s).normIdx = tE)) := by
  obtain ⟨nI, pW, mS, mE⟩ := s
  obtain rfl : mE = none := hmE
  simp only [stepW]
  split_ifs <;>
    first
      | exact ⟨Or.inl rfl, Or.inl rfl⟩
      | exact ⟨Or.inr rfl, Or.inl rfl⟩
      | exact ⟨Or.inl rfl, Or.inr ⟨0, by omega, rfl, by simp_all⟩⟩
      | exact ⟨Or.inr rfl, Or.inr ⟨0, by omega, rfl, by simp_all⟩⟩
      | exact ⟨Or.inl rfl, Or.inr ⟨1, by omega, rfl, by simp_all⟩⟩
      | exact ⟨Or.inr rfl, Or.inr ⟨1, by omega, rfl, by simp_all⟩⟩

theorem walk_bounds (tS tE : Nat) : ∀ (l : Str) (oIdx : Nat) (s : WalkSt),
    (∀ m, s.mStart = some m → m < oIdx) →
    (∀ e, s.mEnd = some e → e ≤ oIdx ∧ tE ≤ s.normIdx ∧
      ∀ m, s.mStart = some m → m ≤ e) →
    oIdx ≤ (walk tS tE l oIdx s).1 ∧
    (walk tS tE l oIdx s).1 ≤ oIdx + l.length ∧
    (∀ m, (walk tS tE l oIdx s).2.mStart = some m →
      m < (walk tS tE l oIdx s).1) ∧
    (∀ e, (walk tS tE l oIdx s).2.mEnd = some e →
      e ≤ (walk tS tE l oIdx s).1 ∧
      ∀ m, (walk tS tE l oIdx s).2.mStart = some m → m ≤ e) := by
  intro l
  induction l with
  | nil =>
    intro oIdx s hS hE
    refine ⟨le_refl _, by simp [walk], hS, ?_⟩
    intro e he
    exact ⟨(hE e he).1, (hE e he).2.2⟩
  | cons c rest ih =>
    intro oIdx s hS hE
    by_cases hg : s.normIdx < tE
    · have hmE : s.mEnd = none := by
        cases hme : s.mEnd with
        | none => rfl
        | some e => exact absurd ((hE e hme).2.1) (by omega)
      have hw : walk tS tE (c :: rest) oIdx s =
          walk tS tE rest (oIdx + 1) (stepW tS tE oIdx c s) := by
        rw [walk, if_pos hg]
      obtain ⟨hc1, hc2⟩ := stepW_cases tS tE oIdx c s hmE
      have hS' : ∀ m, (stepW tS tE oIdx c s).mStart = some m → m < oIdx + 1 := by
        intro m hm
        rcases hc1 with h | h
        · rw [h] at hm
          exact lt_trans (hS m hm) (by omega)
        · rw [h] at hm
          obtain rfl : oIdx = m := Option.some_inj.mp hm
          omega
      have hE' : ∀ e, (stepW tS tE oIdx c s).mEnd = some e →
          e ≤ oIdx + 1 ∧ tE ≤ (stepW tS tE oIdx c s).normIdx ∧
          ∀ m, (stepW tS tE oIdx c s).mStart = some m → m ≤ e := by
        intro e he
        rcases hc2 with h | ⟨i, hi, hset, hnE⟩
        · rw [h] at he
          exact absurd he (by simp)
        · rw [hset] at he
          obtain rfl : oIdx + i = e := Option.some_inj.mp he
          refine ⟨by omega, by omega, ?_⟩
          intro m hm
          have := hS' m hm
          omega
      obtain ⟨g1, g2, g3, g4⟩ := ih (oIdx + 1) (stepW tS tE oIdx c s) hS' hE'
      rw [hw]
      exact ⟨by omega, by simp only [List.length_cons]; omega, g3, g4⟩
    · rw [walk_stop tS tE (c :: rest) oIdx s hg]
      refine ⟨le_refl _, by simp, hS, ?_⟩
      intro e he
      exact ⟨(hE e he).1, (hE e he).2.2⟩

theorem walk_run (tS tE : Nat) (hSE : tS < tE) :
    ∀ (l : Str) (b : Bool) (m oIdx : Nat)
    (ms : Option Nat),
    (0 < m ∨ (b = false ∧ ∀ c, l.head? = some c → isWS c = false)) →
    m < tE →
    tE ≤ m + (collapse l b).length →
    ∃ p2 c2 bF msF,
      l[p2]? = some c2 ∧
      walk tS tE l oIdx ⟨m, b, ms, none⟩ =
        (oIdx + p2 + 1,
          ⟨tE, bF, msF, some (oIdx + p2 + (if isWS c2 then 0 else 1))⟩) ∧
      m + (collapse (l.take p2) b).length + 1 = tE ∧
      m + (collapse (l.take (p2 + 1)) b).length = tE ∧
      (tS < m → msF = ms) ∧
      (m ≤ tS → ∃ p1, p1 ≤ p2 ∧ msF = some (oIdx + p1) ∧
        m + (collapse (l.take p1) b).length = tS ∧
        m + (collapse (l.take (p1 + 1)) b).length = tS + 1) := by
  intro l
  induction l with
  | nil =>
    intro b m oIdx ms hpos hlt hle
    simp [collapse] at hle
    omega
  | cons c rest ih =>
    intro b m oIdx ms hpos hlt hle
    have hw : walk tS tE (c :: rest) oIdx ⟨m, b, ms, none⟩ =
        walk tS tE rest (oIdx + 1) (stepW tS tE oIdx c ⟨m, b, ms, none⟩) := by
      rw [walk, if_pos hlt]
    by_cases hc : isWS c = true
    · cases b with
      | true =>
        have h0 : 0 < m := by
          rcases hpos with h | ⟨hb, _⟩
          · exact h
          · exact absurd hb (by simp)
        have hstep : stepW tS tE oIdx c ⟨m, true, ms, none⟩ =
            ⟨m, true, ms, none⟩ := by
          have hne : ¬ (m = tE) := by omega
          simp [stepW, hc, hne]
        have hcol : collapse (c :: rest) true = collapse rest true := by
          simp [collapse, hc]
        obtain ⟨p2, c2, bF, msF, hg, hwalk, ht1, ht2, hm1, hm2⟩ :=
          ih true m (oIdx + 1) ms (Or.inl h0) hlt
            (by rw [hcol] at hle; exact hle)
        have e2 : ∀ X : Nat, oIdx + 1 + p2 + X = oIdx + (p2 + 1) + X :=
          fun X => by omega
        refine ⟨p2 + 1, c2, bF, msF, by simpa using hg, ?_, ?_, ?_, hm1, ?_⟩
        · rw [hw, hstep, hwalk, e2 1, e2 (if isWS c2 then 0 else 1)]
        · rw [List.take_succ_cons,
            show collapse (c :: rest.take p2) true =
              collapse (rest.take p2) true by simp [collapse, hc]]
          exact ht1
        · rw [List.take_succ_cons,
            show collapse (c :: rest.take (p2 + 1)) true =
              collapse (rest.take (p2 + 1)) true by simp [collapse, hc]]
          exact ht2
        · intro hts
          obtain ⟨p1, hp1, hms, hs1, hs2⟩ := hm2 hts
          refine ⟨p1 + 1, by omega, ?_, ?_, ?_⟩
          · rw [hms, show oIdx + 1 + p1 = oIdx + (p1 + 1) by omega]
          · rw [List.take_succ_cons,
              show collapse (c :: rest.take p1) true =
                collapse (rest.take p1) true by simp [collapse, hc]]
            exact hs1
          · rw [List.take_succ_cons,
              show collapse (c :: rest.take (p1 + 1)) true =
                collapse (rest.take (p1 + 1)) true by simp [collapse, hc]]
            exact hs2
      | false =>
        have h0 : 0 < m := by
          rcases hpos with h | ⟨_, hh⟩
          · exact h
          · exact absurd (hh c rfl) (by simp [hc])
        have hcol : collapse (c :: rest) false = ' ' :: collapse rest true := by
          simp [collapse, hc]
        by_cases htE : m + 1 = tE
        · have hstep : stepW tS tE oIdx c ⟨m, false, ms, none⟩ =
              ⟨tE, true, if m = tS then some oIdx else ms, some oIdx⟩ := by
            simp [stepW, hc, h0, htE]
          refine ⟨0, c, true, if m = tS then some oIdx else ms, by simp, ?_,
            ?_, ?_, ?_, ?_⟩
          · rw [hw, hstep, walk_stop tS tE rest (oIdx + 1) _ (by simp)]
            simp [hc]
          · simp [collapse]
            omega
          · simp [List.take_succ_cons, collapse, hc]
            omega
          · intro hts
            rw [if_neg (by omega)]
          · intro hts
            have hmts : m = tS := by omega
            refine ⟨0, le_refl 0, ?_, ?_, ?_⟩
            · rw [if_pos hmts]
              simp
            · simp [collapse]
              omega
            · simp [List.take_succ_cons, collapse, hc]
              omega
        · have hstep : stepW tS tE oIdx c ⟨m, false, ms, none⟩ =
              ⟨m + 1, true, if m = tS then some oIdx else ms, none⟩ := by
            simp [stepW, hc, h0, htE]
          have hle' : tE ≤ (m + 1) + (collapse rest true).length := by
            rw [hcol] at hle
            simp only [List.length_cons] at hle
            omega
          obtain ⟨p2, c2, bF, msF, hg, hwalk, ht1, ht2, hm1, hm2⟩ :=
            ih true (m + 1) (oIdx + 1) (if m = tS then some oIdx else ms)
              (Or.inl (by omega)) (by omega) hle'
          have e2 : ∀ X : Nat, oIdx + 1 + p2 + X = oIdx + (p2 + 1) + X :=
            fun X => by omega
          refine ⟨p2 + 1, c2, bF, msF, by simpa using hg, ?_, ?_, ?_, ?_, ?_⟩
          · rw [hw, hstep, hwalk, e2 1, e2 (if isWS c2 then 0 else 1)]
          · rw [List.take_succ_cons,
              show collapse (c :: rest.take p2) false =
                ' ' :: collapse (rest.take p2) true by simp [collapse, hc]]
            simp only [List.length_cons]
            omega
          · rw [List.take_succ_cons,
              show collapse (c :: rest.take (p2 + 1)) false =
                ' ' :: collapse (rest.take (p2 + 1)) true by
                  simp [collapse, hc]]
            simp only [List.length_cons]
            omega
          · intro hts
            rw [hm1 (by omega), if_neg (by omega)]
          · intro hts
            by_cases hmts : m = tS
            · refine ⟨0, by omega, ?_, ?_, ?_⟩
              · rw [hm1 (by omega), if_pos hmts]
                simp
              · simp [collapse]
                omega
              · simp [List.take_succ_cons, collapse, hc]
                omega
            · obtain ⟨p1, hp1, hms, hs1, hs2⟩ := hm2 (by omega)
              refine ⟨p1 + 1, by omega, ?_, ?_, ?_⟩
              · rw [hms, show oIdx + 1 + p1 = oIdx + (p1 + 1) by omega]
              · rw [List.take_succ_cons,
                  show collapse (c :: rest.take p1) false =
                    ' ' :: collapse (rest.take p1) true by simp [collapse, hc]]
                simp only [List.length_cons]
                omega
              · rw [List.take_succ_cons,
                  show collapse (c :: rest.take (p1 + 1)) false =
                    ' ' :: collapse (rest.take (p1 + 1)) true by
                      simp [collapse, hc]]
                simp only [List.length_cons]
                omega
    · have hcol : collapse (c :: rest) b = c :: collapse rest false := by
        simp [collapse, hc]
      by_cases htE : m + 1 = tE
      · have hstep : stepW tS tE oIdx c ⟨m, b, ms, none⟩ =
            ⟨tE, false, if m = tS then some oIdx else ms, some (oIdx + 1)⟩ := by
          simp [stepW, hc, htE]
        refine ⟨0, c, false, if m = tS then some oIdx else ms, by simp, ?_,
          ?_, ?_, ?_, ?_⟩
        · rw [hw, hstep, walk_stop tS tE rest (oIdx + 1) _ (by simp)]
          simp [hc]
        · simp [collapse]
          omega
        · simp [List.take_succ_cons, collapse, hc]
          omega
        · intro hts
          rw [if_neg (by omega)]
        · intro hts
          have hmts : m = tS := by omega
          refine ⟨0, le_refl 0, ?_, ?_, ?_⟩
          · rw [if_pos hmts]
            simp
          · simp [collapse]
            omega
          · simp [List.take_succ_cons, collapse, hc]
            omega
      · have hstep : stepW tS tE oIdx c ⟨m, b, ms, none⟩ =
            ⟨m + 1, false, if m = tS then some oIdx else ms, none⟩ := by
          simp [stepW, hc, htE]
        have hle' : tE ≤ (m + 1) + (collapse rest false).length := by
          rw [hcol] at hle
          simp only [List.length_cons] at hle
          omega
        obtain ⟨p2, c2, bF, msF, hg, hwalk, ht1, ht2, hm1, hm2⟩ :=
          ih false (m + 1) (oIdx + 1) (if m = tS then some oIdx else ms)
            (Or.inl (by omega)) (by omega) hle'
        have e2 : ∀ X : Nat, oIdx + 1 + p2 + X = oIdx + (p2 + 1) + X :=
          fun X => by omega
        refine ⟨p2 + 1, c2, bF, msF, by simpa using hg, ?_, ?_, ?_, ?_, ?_⟩
        · rw [hw, hstep, hwalk, e2 1, e2 (if isWS c2 then 0 else 1)]
        · rw [List.take_succ_cons,
            show collapse (c :: rest.take p2) b =
              c :: collapse (rest.take p2) false by simp [collapse, hc]]
          simp only [List.length_cons]
          omega
        · rw [List.take_succ_cons,
            show collapse (c :: rest.take (p2 + 1)) b =
              c :: collapse (rest.take (p2 + 1)) false by simp [collapse, hc]]
          simp only [List.length_cons]
          omega
        · intro hts
          rw [hm1 (by omega), if_neg (by omega)]
        · intro hts
          by_cases hmts : m = tS
          · refine ⟨0, by omega, ?_, ?_, ?_⟩
            · rw [hm1 (by omega), if_pos hmts]
              simp
            · simp [collapse]
              omega
            · simp [List.take_succ_cons, collapse, hc]
              omega
          · obtain ⟨p1, hp1, hms, hs1, hs2⟩ := hm2 (by omega)
            refine ⟨p1 + 1, by omega, ?_, ?_, ?_⟩
            · rw [hms, show oIdx + 1 + p1 = oIdx + (p1 + 1) by omega]
            · rw [List.take_succ_cons,
                show collapse (c :: rest.take p1) b =
                  c :: collapse (rest.take p1) false by simp [collapse, hc]]
              simp only [List.length_cons]
              omega
            · rw [List.take_succ_cons,
                show collapse (c :: rest.take (p1 + 1)) b =
                  c :: collapse (rest.take (p1 + 1)) false by
                    simp [collapse, hc]]
              simp only [List.length_cons]
              omega

/-! ## Structure of `collapse` under append, and the normalized text as a
prefix of the collapsed trimmed text -/

theorem wsLast_cons_cons (c d : Char) (xs : Str) :
    wsLast (c :: d :: xs) = wsLast (d :: xs) := by
  rw [wsLast, wsLast, List.getLast?_cons_cons]

theorem collapse_append : ∀ (x y : Str) (b : Bool), x ≠ [] →
    collapse (x ++ y) b = collapse x b ++ collapse y (wsLast x) := by
  intro x
  induction x with
  | nil => intro y b h; exact absurd rfl h
  | cons c xs ih =>
    intro y b _
    cases xs with
    | nil =>
      have hws : wsLast [c] = isWS c := by
        rw [wsLast]
        simp
      by_cases hc : isWS c = true <;> cases b <;>
        simp [collapse, hc, hws]
    | cons d ds =>
      by_cases hc : isWS c = true
      · cases b with
        | true =>
          have h1 : collapse ((c :: d :: ds) ++ y) true =
              collapse ((d :: ds) ++ y) true := by
            simp [collapse, hc]
          have h2 : collapse (c :: d :: ds) true =
              collapse (d :: ds) true := by
            simp [collapse, hc]
          rw [h1, h2, wsLast_cons_cons, ih y true (by simp)]
        | false =>
          have h1 : collapse ((c :: d :: ds) ++ y) false =
              ' ' :: collapse ((d :: ds) ++ y) true := by
            simp [collapse, hc]
          have h2 : collapse (c :: d :: ds) false =
              ' ' :: collapse (d :: ds) true := by
            simp [collapse, hc]
          rw [h1, h2, wsLast_cons_cons, ih y true (by simp)]
          simp
      · have h1 : collapse ((c :: d :: ds) ++ y) b =
            c :: collapse ((d :: ds) ++ y) false := by
          simp [collapse, hc]
        have h2 : collapse (c :: d :: ds) b =
            c :: collapse (d :: ds) false := by
          simp [collapse, hc]
        rw [h1, h2, wsLast_cons_cons, ih y false (by simp)]
        simp

theorem collapse_prefix (x y : Str) (b : Bool) (h : x <+: y) :
    collapse x b <+: collapse y b := by
  obtain ⟨t, rfl⟩ := h
  cases x with
  | nil => simp [collapse]
  | cons c xs =>
    rw [collapse_append (c :: xs) t b (by simp)]
    exact List.prefix_append _ _

theorem collapse_ws_true : ∀ (t : Str), (∀ c ∈ t, isWS c = true) →
    collapse t true = [] := by
  intro t
  induction t with
  | nil => intro _; rfl
  | cons c r ih =>
    intro h
    rw [collapse, if_pos (h c (by simp)), if_pos rfl]
    exact ih (fun d hd => h d (by simp [hd]))

theorem collapse_all_ws (t : Str) (hne : t ≠ [])
    (hall : ∀ c ∈ t, isWS c = true) : collapse t false = [' '] := by
  cases t with
  | nil => exact absurd rfl hne
  | cons c r =>
    rw [collapse, if_pos (hall c (by simp)), if_neg (by simp)]
    rw [collapse_ws_true r (fun d hd => hall d (by simp [hd]))]

theorem dropWhile_eq_drop (p : Char → Bool) : ∀ (l : Str),
    l.dropWhile p = l.drop (l.takeWhile p).length := by
  intro l
  induction l with
  | nil => rfl
  | cons a t ih =>
    by_cases h : p a <;>
      simp [List.dropWhile_cons, List.takeWhile_cons, h, ih]

theorem drop_trimmedStart (l : Str) :
    l.drop (l.length - (l.dropWhile isWS).length) = l.dropWhile isWS := by
  have h1 := dropWhile_eq_drop isWS l
  have h2 : (l.takeWhile isWS).length ≤ l.length :=
    (List.takeWhile_prefix _).length_le
  have h3 : (l.dropWhile isWS).length =
      l.length - (l.takeWhile isWS).length := by
    rw [h1, List.length_drop]
  rw [h3, show l.length - (l.length - (l.takeWhile isWS).length) =
    (l.takeWhile isWS).length by omega]
  exact h1.symm

theorem dropWhile_collapse (l : Str) :
    (collapse (l.dropWhile isWS) false).dropWhile isWS =
      collapse (l.dropWhile isWS) false := by
  cases hd : l.dropWhile isWS with
  | nil => simp [collapse]
  | cons a r =>
    have ha : isWS a = false := dropWhile_head_not_ws l a (by rw [hd]; rfl)
    rw [collapse, if_neg (by simp [ha])]
    rw [List.dropWhile_cons, if_neg (by simp [ha])]

theorem normalizeWhitespace_eq_dropWhile (orig : Str) :
    normalizeWhitespace orig =
      jsTrim (collapse (orig.dropWhile isWS) false) := by
  rw [normalizeWhitespace]
  cases htw : orig.takeWhile isWS with
  | nil =>
    have hdw : orig.dropWhile isWS = orig := by
      rw [dropWhile_eq_drop, htw]
      simp
    rw [hdw]
  | cons a tws =>
    have hsplit : orig = (a :: tws) ++ orig.dropWhile isWS := by
      rw [← htw]
      exact (List.takeWhile_append_dropWhile _ _).symm
    have hall : ∀ c ∈ (a :: tws), isWS c = true := by
      intro c hcmem
      rw [← htw] at hcmem
      exact List.mem_takeWhile_imp hcmem
    have hwsl : wsLast (a :: tws) = true := by
      rw [wsLast]
      cases hgl : (a :: tws).getLast? with
      | none => simp at hgl
      | some d =>
        have hdm : d ∈ (a :: tws).getLast? := by
          rw [hgl]
          rfl
        obtain ⟨hne2, hd2⟩ := List.mem_getLast?_eq_getLast hdm
        exact hall d (hd2 ▸ List.getLast_mem hne2)
    have hhead : ∀ c, (orig.dropWhile isWS).head? = some c →
        isWS c = false := dropWhile_head_not_ws orig
    conv_lhs => rw [hsplit]
    rw [collapse_append _ _ _ (by simp),
      collapse_all_ws _ (by simp) hall, hwsl, collapse_true_head _ hhead]
    rw [jsTrim, jsTrim]
    rw [show ([' '] ++ collapse (orig.dropWhile isWS) false).dropWhile isWS =
        (collapse (orig.dropWhile isWS) false).dropWhile isWS by
      rw [List.singleton_append, List.dropWhile_cons,
        if_pos (by decide : isWS ' ' = true)]]

theorem normalizeWhitespace_prefix (orig : Str) :
    normalizeWhitespace orig <+: collapse (orig.dropWhile isWS) false := by
  rw [normalizeWhitespace_eq_dropWhile]
  have h := jsTrim_prefix_dropWhile (collapse (orig.dropWhile isWS) false)
  rwa [dropWhile_collapse] at h

theorem scanPairs_bound (nLen hayLen : Nat) (maxD : ℤ) :
    ∀ p ∈ scanPairs nLen hayLen maxD, p.2 + p.1 ≤ hayLen := by
  intro p hp
  simp only [scanPairs, List.mem_flatMap, List.mem_map] at hp
  obtain ⟨w, hw, i, hi, rfl⟩ := hp
  rw [List.mem_range'_1] at hw
  rw [List.mem_range] at hi
  simp only
  omega

theorem scanPairs_mem (nLen hayLen : Nat) (maxD : ℤ) (s : Nat)
    (h1 : 1 ≤ nLen) (h0 : 0 ≤ maxD) (hs : s + nLen ≤ hayLen) :
    (nLen, s) ∈ scanPairs nLen hayLen maxD := by
  simp only [scanPairs, List.mem_flatMap, List.mem_map]
  refine ⟨nLen, ?_, ⟨s, ?_, rfl⟩⟩
  · rw [List.mem_range'_1]
    constructor
    · omega
    · omega
  · rw [List.mem_range]
    omega

theorem collapse_take_succ (L : Str) (p : Nat) (c : Char)
    (hg : L[p]? = some c)
    (hlen : (collapse (L.take (p + 1)) false).length =
            (collapse (L.take p) false).length + 1) :
    collapse (L.take (p + 1)) false =
      collapse (L.take p) false ++ [if isWS c then ' ' else c] ∧
    (wsLast (L.take p) = true → isWS c = false) := by
  have htake : L.take (p + 1) = L.take p ++ [c] := by
    rw [List.take_succ, hg]
    rfl
  cases hp : L.take p with
  | nil =>
    rw [htake, hp]
    simp only [List.nil_append]
    constructor
    · by_cases hws : isWS c = true <;> simp [collapse, hws]
    · intro hwl
      simp [wsLast] at hwl
  | cons a as =>
    rw [← hp]
    have hne2 : L.take p ≠ [] := by rw [hp]; simp
    have hsp := collapse_append (L.take p) [c] false hne2
    rw [htake, hsp, List.length_append] at hlen
    have h1 : (collapse [c] (wsLast (L.take p))).length = 1 := by omega
    have hcval : ∀ st : Bool, (collapse [c] st).length = 1 →
        collapse [c] st = [if isWS c then ' ' else c] := by
      intro st hst1
      by_cases hws : isWS c = true
      · cases st with
        | true => simp [collapse, hws] at hst1
        | false => simp [collapse, hws]
      · simp [collapse, hws]
    constructor
    · rw [htake, hsp, hcval _ h1]
    · intro hst
      by_cases hws : isWS c = true
      · rw [hst] at h1
        simp [collapse, hws] at h1
      · simpa using hws

theorem fuzzyMatch_found (needle N : Str) (threshold : ℚ)
    (hN : normalizeWhitespace N = N)
    (hthr : 0 ≤ threshold)
    (hne : normalizeWhitespace needle ≠ [])
    (hocc : normalizeWhitespace needle <:+: N) :
    ∃ res, fuzzyMatch needle N threshold = some res ∧
      res.distance = 0 ∧
      res.length = (normalizeWhitespace needle).length ∧
      res.index + res.length ≤ N.length ∧
      (N.drop res.index).take res.length = normalizeWhitespace needle := by
  have hmd0 : (0 : ℤ) ≤
      Int.floor (((normalizeWhitespace needle).length : ℚ) * threshold) :=
    Int.floor_nonneg.mpr (mul_nonneg (by positivity) hthr)
  obtain ⟨pre, post, hNsplit⟩ := hocc
  have hnpos : 1 ≤ (normalizeWhitespace needle).length :=
    Nat.pos_of_ne_zero (by simpa using hne)
  have hocc2 : (N.drop pre.length).take (normalizeWhitespace needle).length =
      normalizeWhitespace needle := by
    rw [← hNsplit, List.append_assoc, List.drop_left, List.take_left]
  have hlenN : pre.length + (normalizeWhitespace needle).length ≤ N.length := by
    rw [← hNsplit]
    simp [List.length_append]
  have hmem : ((normalizeWhitespace needle).length, pre.length) ∈
      scanPairs (normalizeWhitespace needle).length N.length
        (Int.floor (((normalizeWhitespace needle).length : ℚ) * threshold)) :=
    scanPairs_mem _ _ _ _ hnpos hmd0 hlenN
  have hex : ∃ p ∈ scanPairs (normalizeWhitespace needle).length N.length
      (Int.floor (((normalizeWhitespace needle).length : ℚ) * threshold)),
      levenshteinDistance (normalizeWhitespace needle)
        ((N.drop p.2).take p.1) = 0 := by
    refine ⟨((normalizeWhitespace needle).length, pre.length), hmem, ?_⟩
    simp only
    rw [hocc2]
    simp [levenshteinDistance]
  obtain ⟨res, hres, hdist⟩ := fuzzyScan_zero (normalizeWhitespace needle) N
    (Int.floor (((normalizeWhitespace needle).length : ℚ) * threshold)) hmd0
    _ none (by intro b hb; exact absurd hb (by simp)) hex
  have hfm : fuzzyMatch needle N threshold = some res := by
    rw [fuzzyMatch, fuzzyMatchCore]
    simp only [hN]
    rw [if_neg (by omega)]
    exact hres
  obtain ⟨hlev, _, hQ⟩ := fuzzyScan_sound (normalizeWhitespace needle) N
    (Int.floor (((normalizeWhitespace needle).length : ℚ) * threshold))
    (fun p => p.2 + p.1 ≤ N.length) _ none res hres
    (scanPairs_bound _ _ _)
    (by intro b hb; exact absurd hb (by simp))
  have hwin : (N.drop res.index).take res.length =
      normalizeWhitespace needle :=
    (levenshteinDistance_eq_zero _ _ (by rw [hlev, hdist])).symm
  have hlenwin : res.length = (normalizeWhitespace needle).length := by
    have h1 : ((N.drop res.index).take res.length).length =
        (normalizeWhitespace needle).length := by rw [hwin]
    rw [List.length_take, List.length_drop] at h1
    simp only at hQ
    omega
  refine ⟨res, hfm, hdist, hlenwin, ?_, hwin⟩
  simpa using hQ

/-- C8 (amended): for a nonnegative threshold and a needle whose
normalized form is nonempty and occurs as a substring of the normalized
document text, `fuzzyMatchInOriginal` returns a span of the original,
unnormalized text — at distance 0, inside the document — whose normalized
form equals the normalized form of the needle. -/
theorem C8_roundtrip (needle orig : Str) (threshold : ℚ)
    (hthr : 0 ≤ threshold)
    (hne : normalizeWhitespace needle ≠ [])
    (hocc : normalizeWhitespace needle <:+: normalizeWhitespace orig) :
    ∃ r, fuzzyMatchInOriginal needle orig threshold = some r ∧
      r.distance = 0 ∧
      r.index + r.length ≤ orig.length ∧
      normalizeWhitespace ((orig.drop r.index).take r.length) =
        normalizeWhitespace needle := by
  obtain ⟨res, hfm, hdist, hlen, hbound, hwin⟩ :=
    fuzzyMatch_found needle (normalizeWhitespace orig) threshold
      (normalizeWhitespace_idem orig) hthr hne hocc
  have hnpos : 1 ≤ (normalizeWhitespace needle).length :=
    Nat.pos_of_ne_zero (by simpa using hne)
  have hpre : normalizeWhitespace orig <+:
      collapse (orig.dropWhile isWS) false := normalizeWhitespace_prefix orig
  have htEc : res.index + res.length ≤
      (collapse (orig.dropWhile isWS) false).length :=
    le_trans hbound hpre.length_le
  have hSE : res.index < res.index + res.length := by omega
  obtain ⟨p2, c2, bF, msF, hp2g, hwalk, hcnt1, hcnt2, _, hmsb⟩ :=
    walk_run res.index (res.index + res.length) hSE
      (orig.dropWhile isWS) false 0
      (orig.length - (orig.dropWhile isWS).length) none
      (Or.inr ⟨rfl, dropWhile_head_not_ws orig⟩)
      (by omega) (by simpa using htEc)
  simp only [Nat.zero_add] at hcnt1 hcnt2
  obtain ⟨p1, hp12, hmsF, hq1, hq2⟩ := hmsb (by omega)
  simp only [Nat.zero_add] at hq1 hq2
  obtain ⟨hp2lt, -⟩ := List.getElem?_eq_some.mp hp2g
  have hLle : (orig.dropWhile isWS).length ≤ orig.length :=
    List.Sublist.length_le (List.dropWhile_sublist _)
  obtain ⟨hsplit2, -⟩ :=
    collapse_take_succ (orig.dropWhile isWS) p2 c2 hp2g (by omega)
  have hpref2 : collapse ((orig.dropWhile isWS).take (p2 + 1)) false <+:
      collapse (orig.dropWhile isWS) false :=
    collapse_prefix _ _ _ (List.take_prefix _ _)
  have heq2 : collapse ((orig.dropWhile isWS).take (p2 + 1)) false =
      (normalizeWhitespace orig).take (res.index + res.length) := by
    have h1 := List.prefix_iff_eq_take.mp hpref2
    rw [hcnt2] at h1
    rw [h1]
    obtain ⟨t, ht⟩ := hpre
    rw [← ht, List.take_append_of_le_length hbound]
  have hNtake : (normalizeWhitespace orig).take (res.index + res.length) =
      (normalizeWhitespace orig).take res.index ++
        normalizeWhitespace needle := by
    rw [List.take_add, hwin]
  have hql : (normalizeWhitespace needle).getLast? =
      some ((normalizeWhitespace needle).getLast hne) :=
    List.getLast?_eq_getLast_of_ne_nil hne
  have hqlast : isWS ((normalizeWhitespace needle).getLast hne) = false :=
    jsTrim_getLast_not_ws (collapse needle false) _ hql
  have hc2 : isWS c2 = false := by
    by_cases hws : isWS c2 = true
    · exfalso
      have hgl1 : (collapse ((orig.dropWhile isWS).take (p2 + 1))
          false).getLast? = some ' ' := by
        rw [hsplit2, List.getLast?_append]
        simp [hws]
      rw [heq2, hNtake, List.getLast?_append, hql] at hgl1
      simp only [Option.or_some] at hgl1
      have : (normalizeWhitespace needle).getLast hne = ' ' :=
        Option.some_inj.mp hgl1
      rw [this] at hqlast
      simp [isWS] at hqlast
    · simpa using hws
  have hseg : (orig.dropWhile isWS).take (p2 + 1) =
      (orig.dropWhile isWS).take p1 ++
        ((orig.dropWhile isWS).drop p1).take (p2 + 1 - p1) := by
    conv_rhs => rw [← List.take_add]
    rw [show p1 + (p2 + 1 - p1) = p2 + 1 by omega]
  have hsegcol : collapse (((orig.dropWhile isWS).drop p1).take
      (p2 + 1 - p1)) false = normalizeWhitespace needle := by
    by_cases hp1z : p1 = 0
    · subst hp1z
      have htS0 : res.index = 0 := by
        simp [collapse] at hq1
        omega
      rw [List.drop_zero]
      rw [show p2 + 1 - 0 = p2 + 1 by omega]
      rw [heq2, hNtake, htS0]
      simp
    · have hlen1 : ((orig.dropWhile isWS).take p1).length = p1 := by
        rw [List.length_take]
        omega
      have hne1 : (orig.dropWhile isWS).take p1 ≠ [] := by
        intro hcon
        rw [hcon] at hlen1
        simp at hlen1
        omega
      have hsp := collapse_append ((orig.dropWhile isWS).take p1)
        (((orig.dropWhile isWS).drop p1).take (p2 + 1 - p1)) false hne1
      rw [← hseg, heq2, hNtake] at hsp
      have hlen2 : ((normalizeWhitespace orig).take res.index).length =
          (collapse ((orig.dropWhile isWS).take p1) false).length := by
        rw [List.length_take, hq1]
        have : res.index + res.length ≤ (normalizeWhitespace orig).length :=
          hbound
        omega
      obtain ⟨-, hqseg⟩ := List.append_inj hsp hlen2
      cases hst : wsLast ((orig.dropWhile isWS).take p1) with
      | false =>
        rw [hst] at hqseg
        exact hqseg.symm
      | true =>
        have hp1lt : p1 < (orig.dropWhile isWS).length := by omega
        have hc1g : (orig.dropWhile isWS)[p1]? =
            some ((orig.dropWhile isWS)[p1]) :=
          List.getElem?_eq_getElem hp1lt
        obtain ⟨-, hc1ws⟩ :=
          collapse_take_succ (orig.dropWhile isWS) p1 _ hc1g (by omega)
        have hc1 : isWS ((orig.dropWhile isWS)[p1]) = false := hc1ws hst
        have hhead : ∀ c,
            ((((orig.dropWhile isWS).drop p1).take (p2 + 1 - p1)).head? =
              some c) → isWS c = false := by
          intro c hch
          rw [List.head?_eq_getElem?, List.getElem?_take,
            if_pos (by omega), List.getElem?_drop] at hch
          rw [show p1 + 0 = p1 by omega, hc1g] at hch
          obtain rfl : (orig.dropWhile isWS)[p1] = c :=
            Option.some_inj.mp hch
          exact hc1
        rw [hst, collapse_true_head _ hhead] at hqseg
        exact hqseg.symm
  refine ⟨⟨orig.length - (orig.dropWhile isWS).length + p1,
    (orig.length - (orig.dropWhile isWS).length + p2 + 1) -
      (orig.length - (orig.dropWhile isWS).length + p1), res.distance⟩,
    ?_, hdist, ?_, ?_⟩
  · simp only [fuzzyMatchInOriginal, hfm]
    rw [drop_trimmedStart orig, hwalk, hmsF]
    simp [hc2]
  · simp only
    omega
  · simp only
    rw [show orig.length - (orig.dropWhile isWS).length + p2 + 1 -
        (orig.length - (orig.dropWhile isWS).length + p1) = p2 + 1 - p1
      by omega]
    rw [show orig.drop (orig.length - (orig.dropWhile isWS).length + p1) =
        (orig.dropWhile isWS).drop p1 by
      conv_rhs => rw [← drop_trimmedStart orig]
      rw [List.drop_drop]]
    rw [normalizeWhitespace, hsegcol]
    exact jsTrim_eq_self (normalizeWhitespace needle)
      (fun c h => jsTrim_head_not_ws (collapse needle false) c h)
      (fun c h => jsTrim_getLast_not_ws (collapse needle false) c h)

theorem fuzzyMatchInOriginal_bounds (needle orig : Str) (threshold : ℚ)
    (r : FuzzyMatchResult)
    (h : fuzzyMatchInOriginal needle orig threshold = some r) :
    r.index + r.length ≤ orig.length := by
  simp only [fuzzyMatchInOriginal] at h
  cases hq : fuzzyMatch needle (normalizeWhitespace orig) threshold with
  | none =>
    simp only [hq] at h
    exact absurd h (by simp)
  | some q =>
    simp only [hq] at h
    obtain ⟨hb1, hb2, hb3, hb4⟩ := walk_bounds q.index (q.index + q.length)
      (orig.drop (orig.length - (orig.dropWhile isWS).length))
      (orig.length - (orig.dropWhile isWS).length)
      ⟨0, false, none, none⟩ (by simp) (by simp)
    cases hms : (walk q.index (q.index + q.length)
        (orig.drop (orig.length - (orig.dropWhile isWS).length))
        (orig.length - (orig.dropWhile isWS).length)
        ⟨0, false, none, none⟩).2.mStart with
    | none =>
      simp only [hms] at h
      exact absurd h (by simp)
    | some ms =>
      simp only [hms] at h
      have hx := Option.some_inj.mp h
      rw [← hx]
      simp only
      have hms_lt := hb3 ms hms
      have hlen : orig.length - (orig.dropWhile isWS).length +
          (orig.drop (orig.length - (orig.dropWhile isWS).length)).length =
          orig.length := by
        rw [List.length_drop]
        omega
      cases hme : (walk q.index (q.index + q.length)
          (orig.drop (orig.length - (orig.dropWhile isWS).length))
          (orig.length - (orig.dropWhile isWS).length)
          ⟨0, false, none, none⟩).2.mEnd with
      | none =>
        simp only [hme, Option.getD_none]
        omega
      | some e =>
        obtain ⟨he1, he2⟩ := hb4 e hme
        have := he2 ms hms
        simp only [hme, Option.getD_some]
        omega

/-- C8 counterexample: for the all-whitespace needle `" "` against the
document `"x"`, the normalized needle (the empty string) is a substring of
the normalized document, yet `fuzzyMatchInOriginal` returns no match (the
empty normalized needle is rejected up front), so the round-trip claim
fails as stated for degenerate needles. -/
theorem C8_counterexample_ws_needle :
    normalizeWhitespace [' '] <:+: normalizeWhitespace ['x'] ∧
    fuzzyMatchInOriginal [' '] ['x'] 0 = none := by
  constructor
  · decide
  · rfl

theorem C8_roundtrip_witness :
    ∃ r, fuzzyMatchInOriginal ['a'] ['a'] 0 = some r ∧
      r.distance = 0 ∧
      r.index + r.length ≤ (['a'] : Str).length ∧
      normalizeWhitespace (((['a'] : Str).drop r.index).take r.length) =
        normalizeWhitespace ['a'] :=
  C8_roundtrip ['a'] ['a'] 0 (le_refl 0) (by decide) (by decide)

/-! ## Well-formedness of the three resolution stages -/

theorem stage1Window_spec (docText : Str) (hint regionStart idx n : Nat)
    (hn : 1 ≤ n)
    (hidx : idx + n ≤ (stage1Window docText hint regionStart).length) :
    regionStart + idx + n ≤ docText.length := by
  simp only [stage1Window, jsSubstring] at hidx
  split_ifs at hidx with h
  · rw [List.length_take, List.length_drop] at hidx
    omega
  · rw [List.length_take, List.length_drop] at hidx
    omega

theorem resolveStage1_wf (target : CommentTarget) (docText : Str)
    (x : ResolvedAnchor) (hex : target.exact ≠ [])
    (h : resolveStage1 target docText = .ok (some x)) :
    x.toPos = x.fromPos + target.exact.length ∧
    x.toPos ≤ docText.length ∧
    x.line = computeLineNumber docText x.fromPos ∧ x.stage = 1 := by
  have hn1 : 1 ≤ target.exact.length :=
    Nat.pos_of_ne_zero (fun hz => hex (List.length_eq_zero.mp hz))
  cases hlh : target.lineHint with
  | none =>
    simp only [resolveStage1, hlh] at h
    exact absurd h (by simp)
  | some hint =>
    simp only [resolveStage1, hlh] at h
    cases hsum : sumLinesBefore (docText.splitOn '\n') (hint - 20) with
    | error e =>
      simp only [hsum] at h
      exact absurd h (by simp)
    | ok regionStart =>
      simp only [hsum] at h
      cases hidx : jsIndexOf (stage1Window docText hint regionStart)
          target.exact 0 with
      | none =>
        simp only [hidx] at h
        exact absurd h (by simp)
      | some idx =>
        simp only [hidx] at h
        have hx := Option.some_inj.mp (Except.ok.inj h)
        rcases jsIndexOf_spec (stage1Window docText hint regionStart)
            target.exact with ⟨hnone, -⟩ | ⟨idx2, heq, hle, hpre, -⟩
        · rw [hidx] at hnone
          exact absurd hnone (by simp)
        · rw [hidx] at heq
          obtain rfl : idx2 = idx := (Option.some_inj.mp heq).symm
          have hplen : target.exact.length ≤
              ((stage1Window docText hint regionStart).drop idx2).length :=
            (List.isPrefixOf_iff_prefix.mp hpre).length_le
          rw [List.length_drop] at hplen
          have hb := stage1Window_spec docText hint regionStart idx2
            target.exact.length hn1 (by omega)
          rw [← hx]
          exact ⟨rfl, hb, rfl, rfl⟩

theorem resolveStage2_wf (target : CommentTarget) (docText : Str)
    (x : ResolvedAnchor) (h : resolveStage2 target docText = some x) :
    x.toPos = x.fromPos + target.exact.length ∧ x.toPos ≤ docText.length ∧
    x.line = computeLineNumber docText x.fromPos ∧ x.stage = 2 := by
  simp only [resolveStage2] at h
  cases hb : (sortByScoreDesc (collectCandidates target docText 0)).head? with
  | none =>
    simp only [hb] at h
    exact absurd h (by simp)
  | some best =>
    simp only [hb] at h
    have hx := Option.some_inj.mp h
    have hmem := head?_mem_of_sortByScoreDesc hb
    obtain ⟨h1, h2, h3⟩ := collectCandidates_mem target docText 0 best hmem
    have hplen : target.exact.length ≤ (docText.drop best.fromPos).length :=
      (List.isPrefixOf_iff_prefix.mp h2).length_le
    rw [List.length_drop] at hplen
    rw [← hx]
    refine ⟨h1, ?_, rfl, rfl⟩
    show best.toPos ≤ docText.length
    omega

/-- C10 (amended): when `target.exact` is nonempty, every resolved anchor
returned by `resolveAnchor` is well-formed: `from ≤ to ≤ docText.length`;
stage-1 and stage-2 spans have width `target.exact.length`; and `line`
counts the newline characters before offset `from`.  (With an empty
`exact`, a stale line hint can push a stage-1 zero-width match past the
end of the document — the recorded counterexample.) -/
theorem C10_anchor_wellformed (target : CommentTarget) (docText : Str) (threshold : ℚ)
    (a : ResolvedAnchor) (hex : target.exact ≠ [])
    (h : resolveAnchor target docText threshold = .ok (some a)) :
    a.fromPos ≤ a.toPos ∧ a.toPos ≤ docText.length ∧
    ((a.stage = 1 ∨ a.stage = 2) →
      a.toPos - a.fromPos = target.exact.length) ∧
    a.line = (docText.take a.fromPos).countP (· = '\n') := by
  cases h1 : resolveStage1 target docText with
  | error e =>
    simp only [resolveAnchor, h1] at h
    exact absurd h (by simp)
  | ok o1 =>
    cases o1 with
    | some s1 =>
      simp only [resolveAnchor, h1] at h
      obtain rfl : s1 = a := Option.some_inj.mp (Except.ok.inj h)
      obtain ⟨w1, w2, w3, w4⟩ := resolveStage1_wf target docText s1 hex h1
      refine ⟨by omega, w2, fun _ => by omega, w3⟩
    | none =>
      simp only [resolveAnchor, h1] at h
      cases h2 : resolveStage2 target docText with
      | some s2 =>
        simp only [h2] at h
        obtain rfl : s2 = a := Option.some_inj.mp (Except.ok.inj h)
        obtain ⟨w1, w2, w3, w4⟩ := resolveStage2_wf target docText s2 h2
        refine ⟨by omega, w2, fun _ => by omega, w3⟩
      | none =>
        simp only [h2] at h
        have h3 : resolveStage3 target docText threshold = some a :=
          Except.ok.inj h
        obtain ⟨result, hf, e1, e2, e3, e4⟩ :=
          resolveStage3_decomp target docText threshold a h3
        have hb := fuzzyMatchInOriginal_bounds target.exact docText
          threshold result hf
        refine ⟨by omega, by omega, ?_, by rw [e1]; exact e3⟩
        intro hs
        rcases hs with hs | hs <;> rw [e4] at hs <;> simp at hs

theorem C10_anchor_wellformed_witness :
    (⟨['a'], [], [], none, some 0⟩ : CommentTarget).exact ≠ [] ∧
    resolveAnchor ⟨['a'], [], [], none, some 0⟩ ['a'] 0 =
      .ok (some ⟨0, 1, 0, 1⟩) ∧
    ((⟨0, 1, 0, 1⟩ : ResolvedAnchor).fromPos ≤
        (⟨0, 1, 0, 1⟩ : ResolvedAnchor).toPos ∧
      (⟨0, 1, 0, 1⟩ : ResolvedAnchor).toPos ≤ (['a'] : Str).length ∧
      (((⟨0, 1, 0, 1⟩ : ResolvedAnchor).stage = 1 ∨
          (⟨0, 1, 0, 1⟩ : ResolvedAnchor).stage = 2) →
        (⟨0, 1, 0, 1⟩ : ResolvedAnchor).toPos -
            (⟨0, 1, 0, 1⟩ : ResolvedAnchor).fromPos =
          (⟨['a'], [], [], none, some 0⟩ : CommentTarget).exact.length) ∧
      (⟨0, 1, 0, 1⟩ : ResolvedAnchor).line =
        ((['a'] : Str).take
          (⟨0, 1, 0, 1⟩ : ResolvedAnchor).fromPos).countP (· = '\n')) := by
  have hres : resolveAnchor ⟨['a'], [], [], none, some 0⟩ ['a'] 0 =
      .ok (some ⟨0, 1, 0, 1⟩) := by rfl
  exact ⟨by decide, hres,
    C10_anchor_wellformed ⟨['a'], [], [], none, some 0⟩ ['a'] 0 ⟨0, 1, 0, 1⟩ (by decide) hres⟩

end Marginalia
